import Mathlib

/-!
Shallow embedding of the SLIM assembler and virtual machine
(worm/slim/{parser,namer,resolver,interpreter}.py and worm/util/{validation,console}.py),
with theorems checking the specification's claims about them.

Python strings are modelled as `String`/`List Char`, Python `dict` as ordered
association lists with overwrite-in-place insertion, Python exceptions as an
explicit `ExnKind` channel, and Python machine integers as `Int` (Python ints
are unbounded; the interpreter wraps explicitly via `bound_int`).
-/

set_option linter.unusedVariables false

namespace Worm

/-! ## worm/util/validation.py -/

/-- `Validation` from worm/util/validation.py: either a success value or a
nonempty list of accumulated errors. -/
inductive Validation (α ε : Type) where
  | success (value : α)
  | failure (errors : List ε)
deriving DecidableEq, Repr

/-- `flatmap` from worm/util/validation.py. -/
def flatmapV {α β ε : Type} (val : Validation α ε) (f : α → Validation β ε) : Validation β ε :=
  match val with
  | .success v => f v
  | .failure es => .failure es

/-! ## Exceptions

Python exceptions that can escape the code under consideration. `generic` is
the bare `Exception` raised by the parser on an unparseable line. -/

inductive ExnKind where
  | generic
  | notImplemented
  | zeroDivision
  | keyError
  | valueError
  | indexError
  | stopIteration
  | typeError
  | attributeError
deriving DecidableEq, Repr

/-! ## worm/slim/error.py and the concrete error classes

All `CompilationError` subclasses of namer.py and resolver.py in one sum type. -/

inductive CompilationError where
  | noMoreRegisters (name : String) (line : Nat)
  | registerInUse (name : String) (line : Nat)
  | labelInUse (name : String) (line : Nat)
  | unknownOpcode (name : String) (line : Nat)
  | missingArgument (line : Nat)
  | tooManyArguments (line : Nat)
  | badWord (name : String) (line : Nat)
  | unknownName (name : String) (line : Nat)
  | expectedRegister (name : String) (line : Nat)
  | expectedLabel (name : String) (line : Nat)
deriving DecidableEq, Repr

/-! ## worm/slim/parser.py

The parser recognises each (comment-stripped, trimmed) line with Python
regexes.  The regex languages are embedded as decision procedures:
  NAME      = `[\D][^\s,]*`          (non-digit, then no whitespace/comma)
  NUMBER    = `\d+`
  ARG_SPLIT = `(?:\s*,\s*|\s+)`
  ARG       = `(?:NAME|NUMBER)`
  COMMAND   = `[a-z-]+`
-/

/-- Python whitespace (`\s` / `str.strip` for ASCII input). -/
def pyWs (c : Char) : Bool :=
  c = ' ' || c = '\t' || c = '\n' || c = '\r' || c = '\x0b' || c = '\x0c'

/-- Python `str.strip()` on a character list. -/
def pyStripL (cs : List Char) : List Char :=
  ((cs.dropWhile pyWs).reverse.dropWhile pyWs).reverse

/-- `clean_line` from parser.py: drop everything from the first `;`, then strip. -/
def cleanLine (s : String) : List Char :=
  pyStripL (s.data.takeWhile (fun c => c ≠ ';'))

/-- The NAME regex language: a non-digit first character, then characters that
are neither whitespace nor a comma. -/
def isNameL (cs : List Char) : Bool :=
  match cs with
  | [] => false
  | c :: rest => !c.isDigit && rest.all (fun d => !pyWs d && d ≠ ',')

/-- The NUMBER regex language: one or more digits. -/
def isNumberL (cs : List Char) : Bool :=
  match cs with
  | [] => false
  | _ => cs.all Char.isDigit

/-- The ARG regex language: NAME or NUMBER. -/
def isArgL (cs : List Char) : Bool :=
  isNameL cs || isNumberL cs

/-- The ARG_SPLIT regex language: `\s*,\s*` or `\s+`. -/
def isSepL (cs : List Char) : Bool :=
  match cs.dropWhile pyWs with
  | [] => !cs.isEmpty
  | c :: rest => c = ',' && rest.all pyWs

/-- Full-match of the alternating language `TOK (SEP TOK)*` (when `expectTok`)
or `(SEP TOK)+` (when not), by backtracking search over all split points, as a
regex engine would.  `fuel` bounds the recursion; every step consumes at least
one character, so `length + 1` fuel is always enough. -/
def matchSeqTok (isTok : List Char → Bool) : Nat → Bool → List Char → Bool
  | 0, _, _ => false
  | fuel + 1, true, cs =>
      (List.range cs.length).any (fun i =>
        isTok (cs.take (i + 1)) &&
        ((cs.drop (i + 1)).isEmpty || matchSeqTok isTok fuel false (cs.drop (i + 1))))
  | fuel + 1, false, cs =>
      (List.range cs.length).any (fun j =>
        isSepL (cs.take (j + 1)) && matchSeqTok isTok fuel true (cs.drop (j + 1)))

/-- Full-match of `separated(NAME, ARG_SPLIT)` = `NAME (ARG_SPLIT NAME)*`. -/
def matchNameSeq (cs : List Char) : Bool :=
  matchSeqTok isNameL (cs.length + 1) true cs

/-- Full-match of `ARG_SPLIT ARG (ARG_SPLIT ARG)*`, the non-empty argument part
of a command line. -/
def matchSepArgSeq (cs : List Char) : Bool :=
  matchSeqTok isArgL (cs.length + 1) false cs

/-- Leftmost match of ARG_SPLIT at the head of `cs`: the regex engine first
tries `\s*,\s*` (greedy), then `\s+`.  Returns the number of characters the
match consumes, or `none` if neither alternative matches here. -/
def argSplitAt (cs : List Char) : Option Nat :=
  let w := (cs.takeWhile pyWs).length
  match cs.drop w with
  | ',' :: rest => some (w + 1 + (rest.takeWhile pyWs).length)
  | _ => if w = 0 then none else some w

/-- `re.split(ARG_SPLIT, ·)`: scan left to right, splitting at each leftmost
non-overlapping ARG_SPLIT match. -/
def pySplitSep : Nat → List Char → List Char → List (List Char)
  | 0, cs, cur => [cur.reverse ++ cs]
  | fuel + 1, cs, cur =>
    match cs with
    | [] => [cur.reverse]
    | c :: rest =>
      match argSplitAt cs with
      | some l => cur.reverse :: pySplitSep fuel (cs.drop l) []
      | none => pySplitSep fuel rest (c :: cur)

/-- `re.split(ARG_SPLIT, cs)`. -/
def pySplit (cs : List Char) : List (List Char) :=
  pySplitSep (cs.length + 1) cs []

/-- Parsed-line records from parser.py (`ParsedAlloc`, `ParsedLabel`,
`ParsedCommand`); blank lines are dropped by `flatten` and need no record. -/
inductive PLine where
  | alloc (names : List String) (line : Nat)
  | label (name : String) (line : Nat)
  | cmd (c : String) (args : List String) (line : Nat)
deriving DecidableEq, Repr

/-- Rule 1 of `parse.visit`: full-match of `capture(NAME) + ":"`.  The pattern
ends in a single literal `:`; NAME must consume everything before it. -/
def labelMatch (cs : List Char) : Option String :=
  if cs.getLast? = some ':' && isNameL cs.dropLast then
    some (String.mk cs.dropLast)
  else
    none

/-- The literal head of the allocation rule. -/
def allocPrefix : List Char := "allocate-registers".data

/-- Greedy split point for `\s+` in the allocation rule: try consuming all `k`
leading whitespace characters first, then backtrack to fewer. -/
def findAllocK : Nat → List Char → Option Nat
  | 0, _ => none
  | k + 1, rest =>
    if matchNameSeq (rest.drop (k + 1)) then some (k + 1) else findAllocK k rest

/-- Rule 2 of `parse.visit`: full-match of
`allocate-registers\s+ capture(separated(NAME, ARG_SPLIT))`, returning the
names obtained by `re.split(ARG_SPLIT, group 1)` with each piece stripped. -/
def allocMatch (cs : List Char) : Option (List String) :=
  if cs.take 18 = allocPrefix then
    let rest := cs.drop 18
    let w := (rest.takeWhile pyWs).length
    match findAllocK w rest with
    | some k => some ((pySplit (rest.drop k)).map (fun t => String.mk (pyStripL t)))
    | none => none
  else
    none

/-- Rule 3 of `parse.visit`: full-match of
`capture(COMMAND) capture(ARG_SPLIT + separated(ARG, ARG_SPLIT))?`.
COMMAND characters (`[a-z-]`) and the first character of ARG_SPLIT are
disjoint, so the opcode is the maximal `[a-z-]+` prefix; the remainder, if
non-empty, must match the argument part, which is then split, stripped, and
filtered of empties exactly as in the source. -/
def cmdMatch (cs : List Char) : Option (String × List String) :=
  let cmdCs := cs.takeWhile (fun c => ('a' ≤ c && c ≤ 'z') || c = '-')
  if cmdCs.isEmpty then none
  else
    let rest := cs.drop cmdCs.length
    if rest.isEmpty then some (String.mk cmdCs, [])
    else if matchSepArgSeq rest then
      some (String.mk cmdCs,
        ((pySplit rest).map (fun t => String.mk (pyStripL t))).filter (fun s => s ≠ ""))
    else none

/-- `parse.visit`: classify one cleaned line, in the source's rule order;
an unmatched non-blank line raises a bare `Exception`. -/
def visitLine (s : String) (n : Nat) : Except ExnKind (Option PLine) :=
  let cs := cleanLine s
  if cs.isEmpty then .ok none
  else
    match labelMatch cs with
    | some nm => .ok (some (.label nm n))
    | none =>
      match allocMatch cs with
      | some names => .ok (some (.alloc names n))
      | none =>
        match cmdMatch cs with
        | some (c, args) => .ok (some (.cmd c args n))
        | none => .error .generic

/-- The parser's traversal: lines are visited in order with 1-based numbering;
the first raised exception propagates, blank results are flattened away. -/
def parseGo : Nat → List String → Except ExnKind (List PLine)
  | _, [] => .ok []
  | n, l :: rest =>
    match visitLine l n with
    | .error e => .error e
    | .ok none => parseGo (n + 1) rest
    | .ok (some p) => (parseGo (n + 1) rest).map (p :: ·)

/-- `parse` from parser.py: always returns `Success` of the parsed lines, or
raises (it has no failure path of its own). -/
def parse (code : List String) : Except ExnKind (Validation (List PLine) CompilationError) :=
  (parseGo 1 code).map .success

/-! ## Python dictionaries

Ordered association lists with Python `dict` semantics: insertion appends a
fresh key and overwrites an existing key in place; `len` is the number of
entries (keys are unique under these operations). -/

/-- `key in d`. -/
def dictContains (d : List (String × Nat)) (k : String) : Bool :=
  d.any (fun p => p.1 = k)

/-- `d[key]` as an option. -/
def dictLookup (d : List (String × Nat)) (k : String) : Option Nat :=
  (d.find? (fun p => p.1 = k)).map (fun p => p.2)

/-- `d[key] = v`: overwrite an existing key in place, else append. -/
def dictInsert (d : List (String × Nat)) (k : String) (v : Nat) : List (String × Nat) :=
  match d with
  | [] => [(k, v)]
  | p :: rest => if p.1 = k then (k, v) :: rest else p :: dictInsert rest k v

/-! ## worm/slim/namer.py -/

/-- `NamedCommand`: opcode, raw argument strings, source line number. -/
structure NamedCommand where
  cmd : String
  args : List String
  line : Nat
deriving DecidableEq, Repr

/-- `NamedProgram`: the emitted commands plus the register and label maps. -/
structure NamedProgram where
  lines : List NamedCommand
  registers : List (String × Nat)
  labels : List (String × Nat)
deriving DecidableEq, Repr

/-- `NUM_REGISTERS` from namer.py. -/
def NUM_REGISTERS : Nat := 32

/-- One iteration of the allocation loop in `do_name.visit` (the
`ParsedAlloc` case), for a single name: a name already present in either map
is a `RegisterInUseError`; a full register file is a `NoMoreRegistersError`;
otherwise the name is assigned slot `len(registers)`. -/
def allocStep (labels : List (String × Nat)) (line : Nat)
    (acc : List CompilationError × List (String × Nat)) (name : String) :
    List CompilationError × List (String × Nat) :=
  if dictContains acc.2 name || dictContains labels name then
    (acc.1 ++ [.registerInUse name line], acc.2)
  else if NUM_REGISTERS ≤ acc.2.length then
    (acc.1 ++ [.noMoreRegisters name line], acc.2)
  else
    (acc.1, dictInsert acc.2 name acc.2.length)

/-- The whole allocation loop of `do_name.visit` over the directive's names,
left to right. -/
def allocLoop (registers labels : List (String × Nat)) (names : List String)
    (line : Nat) : List CompilationError × List (String × Nat) :=
  names.foldl (allocStep labels line) ([], registers)

/-- The mutable state threaded through `do_name`'s loop: the two maps closed
over by `visit`, plus the loop-local `errors`, `named_lines`, `label_list`
and `line_num`. -/
structure NState where
  registers : List (String × Nat)
  labels : List (String × Nat)
  errors : List CompilationError
  namedLines : List NamedCommand
  pending : List String
  lineNum : Nat
deriving DecidableEq, Repr

/-- The initial `do_name` state. -/
def initNState : NState :=
  ⟨[], [], [], [], [], 0⟩

/-- One iteration of `do_name`'s loop: `visit` the line and fold its result
into the loop state.  An allocation mutates `registers` and may add errors; a
label is checked against both maps and pushed onto `label_list`; a command
assigns every pending label the current `line_num`, is emitted, and bumps
`line_num`. -/
def nameStep (s : NState) (l : PLine) : NState :=
  match l with
  | .alloc names ln =>
    let r := allocLoop s.registers s.labels names ln
    if r.1.isEmpty then
      { s with registers := r.2 }
    else
      { s with registers := r.2, errors := s.errors ++ r.1 }
  | .label name ln =>
    if dictContains s.registers name || dictContains s.labels name then
      { s with errors := s.errors ++ [.labelInUse name ln] }
    else
      { s with pending := s.pending ++ [name] }
  | .cmd c args ln =>
    { s with
      labels := s.pending.foldl (fun labs nm => dictInsert labs nm s.lineNum) s.labels,
      namedLines := s.namedLines ++ [⟨c, args, ln⟩],
      pending := [],
      lineNum := s.lineNum + 1 }

/-- `do_name` from namer.py: fold the loop over the parsed lines; succeed
exactly when no errors were accumulated.  Pending labels left at the end of
the program are discarded with the loop's `label_list`. -/
def do_name (code : List PLine) : Validation NamedProgram CompilationError :=
  let s := code.foldl nameStep initNState
  if s.errors.isEmpty then
    .success ⟨s.namedLines, s.registers, s.labels⟩
  else
    .failure s.errors

/-! ## worm/slim/resolver.py -/

/-- Argument roles (`Value` enum). -/
inductive Value where
  | register
  | label
deriving DecidableEq, Repr

/-- The `COMMANDS` arity/role table. -/
def COMMANDS (s : String) : Option (List Value) :=
  match s with
  | "add" => some [.register, .register, .register]
  | "sub" => some [.register, .register, .register]
  | "mul" => some [.register, .register, .register]
  | "div" => some [.register, .register, .register]
  | "quo" => some [.register, .register, .register]
  | "rem" => some [.register, .register, .register]
  | "seq" => some [.register, .register, .register]
  | "sne" => some [.register, .register, .register]
  | "slt" => some [.register, .register, .register]
  | "sgt" => some [.register, .register, .register]
  | "sle" => some [.register, .register, .register]
  | "sge" => some [.register, .register, .register]
  | "ld" => some [.register, .register]
  | "st" => some [.register, .register]
  | "li" => some [.register, .label]
  | "read" => some [.register]
  | "write" => some [.register]
  | "j" => some [.register]
  | "jeqz" => some [.register, .register]
  | "halt" => some []
  | _ => none

/-- `ResolvedCommand`: opcode plus fully numeric arguments. -/
structure ResolvedCommand where
  cmd : String
  args : List Int
deriving DecidableEq, Repr

/-- Full-match of `-?\d+` (the resolver's integer-literal test). -/
def isIntLiteral (s : String) : Bool :=
  match s.data with
  | '-' :: rest => isNumberL rest
  | cs => isNumberL cs

/-- Digits to a natural number, most significant first. -/
def digitsToNat (cs : List Char) : Nat :=
  cs.foldl (fun n c => n * 10 + (c.toNat - '0'.toNat)) 0

/-- `int(s)` on a string that full-matches `-?\d+`. -/
def litToInt (s : String) : Int :=
  match s.data with
  | '-' :: rest => -(digitsToNat rest : Int)
  | cs => (digitsToNat cs : Int)

/-- `resolve.visit_arg`: a literal is accepted as-is; a register name must sit
in a `Register` slot and resolves to the register's index; a label name must
sit in a `Label` slot and resolves to the label's command index; anything else
is an unknown name. -/
def visitArg (program : NamedProgram) (arg : String) (expected : Value) (line : Nat) :
    Validation Int CompilationError :=
  if isIntLiteral arg then
    .success (litToInt arg)
  else
    match dictLookup program.registers arg with
    | some v =>
      match expected with
      | .register => .success (v : Int)
      | .label => .failure [.expectedLabel arg line]
    | none =>
      match dictLookup program.labels arg with
      | some v =>
        match expected with
        | .label => .success (v : Int)
        | .register => .failure [.expectedRegister arg line]
      | none => .failure [.unknownName arg line]

/-- One iteration of the per-argument loop of `resolve.visit`: errors
accumulate in order and resolved values are appended on success. -/
def resolveArgStep (program : NamedProgram) (line : Nat)
    (acc : List CompilationError × List Int) (p : String × Value) :
    List CompilationError × List Int :=
  match visitArg program p.1 p.2 line with
  | .failure es => (acc.1 ++ es, acc.2)
  | .success v => (acc.1, acc.2 ++ [v])

/-- The per-argument loop of `resolve.visit` over the argument/role pairs. -/
def resolveArgs (program : NamedProgram) (line : Nat)
    (pairs : List (String × Value)) : List CompilationError × List Int :=
  pairs.foldl (resolveArgStep program line) ([], [])

/-- `resolve.visit` on one named command: opcode check, arity checks, then
argument resolution with error accumulation. -/
def resolveVisit (program : NamedProgram) (nc : NamedCommand) :
    Validation ResolvedCommand CompilationError :=
  match COMMANDS nc.cmd with
  | none => .failure [.unknownOpcode nc.cmd nc.line]
  | some roles =>
    if nc.args.length < roles.length then
      .failure [.missingArgument nc.line]
    else if roles.length < nc.args.length then
      .failure [.tooManyArguments nc.line]
    else
      let r := resolveArgs program nc.line (nc.args.zip roles)
      if r.1.isEmpty then
        .success ⟨nc.cmd, r.2⟩
      else
        .failure r.1

/-- The concatenated failure lists of `sequence`'s `failures` comprehension,
in order. -/
def failsOf {α ε : Type} (vals : List (Validation α ε)) : List ε :=
  vals.foldr
    (fun v acc =>
      match v with
      | .failure es => es ++ acc
      | .success _ => acc) []

/-- The values of `sequence`'s `successes` comprehension, in order. -/
def successesOf {α ε : Type} (vals : List (Validation α ε)) : List α :=
  vals.filterMap
    (fun v =>
      match v with
      | .success x => some x
      | .failure _ => none)

/-- The `failures` comprehension of `sequence`: the failure values, in
order. -/
def failuresOf {α ε : Type} (vals : List (Validation α ε)) : List (Validation α ε) :=
  vals.filter
    (fun v =>
      match v with
      | .failure _ => true
      | .success _ => false)

/-- `sequence` from worm/util/validation.py: if any failure occurred, return
all their error lists concatenated in order, else all success values in
order. -/
def sequenceV {α ε : Type} (vals : List (Validation α ε)) : Validation (List α) ε :=
  if (failuresOf vals).isEmpty then
    .success (successesOf vals)
  else
    .failure (failsOf vals)

/-- `resolve` from resolver.py. -/
def resolve (program : NamedProgram) : Validation (List ResolvedCommand) CompilationError :=
  sequenceV (program.lines.map (resolveVisit program))

/-- `get_message` of each `CompilationError` subclass.  Five of them (plus the
never-constructed `BadWordError`) are unimplemented and raise
`NotImplementedError`. -/
def getMessage (e : CompilationError) : Except ExnKind String :=
  match e with
  | .noMoreRegisters _ _ => .error .notImplemented
  | .registerInUse _ _ => .error .notImplemented
  | .labelInUse _ _ => .error .notImplemented
  | .unknownOpcode name line =>
    .ok ("Unknown opcode '" ++ name ++ "' in line " ++ toString line ++ ".")
  | .missingArgument line =>
    .ok ("Missing argument in line " ++ toString line ++ ".")
  | .tooManyArguments line =>
    .ok ("Too many arguments in line " ++ toString line ++ ".")
  | .badWord _ _ => .error .notImplemented
  | .unknownName name line =>
    .ok ("Unknown name '" ++ name ++ "' in line " ++ toString line ++ ".")
  | .expectedRegister _ _ => .error .notImplemented
  | .expectedLabel _ _ => .error .notImplemented

/-! ## worm/util/console.py

`StaticConsole`: input is an iterator over given lines, output and error are
accumulated line lists. -/

structure Console where
  input : List String
  output : List String
  error : List String
deriving DecidableEq, Repr

/-! ## worm/slim/interpreter.py — the SLIM virtual machine -/

/-- `bound_int`: wrap into two's-complement range `[-2^31, 2^31)`.
Python `%` with a positive modulus is `Int.emod`. -/
def bound_int (i : Int) : Int :=
  (i + 2 ^ 31) % 2 ^ 32 - 2 ^ 31

/-- `sign` from interpreter.py. -/
def signI (i : Int) : Int :=
  if 0 < i then 1 else if i = 0 then 0 else -1

/-- `swap_sign` from interpreter.py: negate both operands when their signs
differ. -/
def swap_sign (a b : Int) : Int × Int :=
  if signI a = signI b then (a, b) else (-a, -b)

/-- The `rem` body: `a, b = swap_sign(...)` then Python `%`, which is
floor-mod (`Int.fmod`); a zero second operand raises `ZeroDivisionError`. -/
def remOp (a b : Int) : Except ExnKind Int :=
  if (swap_sign a b).2 = 0 then .error .zeroDivision
  else .ok (bound_int (Int.fmod (swap_sign a b).1 (swap_sign a b).2))

/-- Python list read `rs[i]`: non-negative indices are direct, negative
indices wrap from the end, anything else raises `IndexError`. -/
def regGet (rs : List Int) (i : Int) : Except ExnKind Int :=
  if 0 ≤ i ∧ i < (rs.length : Int) then .ok (rs.getD i.toNat 0)
  else if -(rs.length : Int) ≤ i ∧ i < 0 then .ok (rs.getD (i + rs.length).toNat 0)
  else .error .indexError

/-- Python list write `rs[i] = v`, with the same index rules. -/
def regSet (rs : List Int) (i : Int) (v : Int) : Except ExnKind (List Int) :=
  if 0 ≤ i ∧ i < (rs.length : Int) then .ok (rs.set i.toNat v)
  else if -(rs.length : Int) ≤ i ∧ i < 0 then .ok (rs.set (i + rs.length).toNat v)
  else .error .indexError

/-- Sparse memory lookup (`self.mem[k]` hit test). -/
def memGet (m : List (Int × Int)) (k : Int) : Option Int :=
  (m.find? (fun p => p.1 = k)).map (fun p => p.2)

/-- Sparse memory store, Python dict semantics (overwrite in place, else
append). -/
def memSet (m : List (Int × Int)) (k : Int) (v : Int) : List (Int × Int) :=
  match m with
  | [] => [(k, v)]
  | p :: rest => if p.1 = k then (k, v) :: rest else p :: memSet rest k v

/-- `int(s)` on a console line: optional surrounding whitespace, optional
sign, then digits (Python also permits single underscores between digits). -/
def digitsU : List Char → Bool
  | [] => false
  | [c] => c.isDigit
  | c :: '_' :: rest => c.isDigit && digitsU rest
  | c :: rest => c.isDigit && digitsU rest

/-- `int(s)` for `read`: `none` models `ValueError`. -/
def pyIntParse (s : String) : Option Int :=
  let cs := pyStripL s.data
  match cs with
  | '+' :: rest =>
    if digitsU rest then some ((digitsToNat (rest.filter (fun c => c ≠ '_')) : Int)) else none
  | '-' :: rest =>
    if digitsU rest then some (-(digitsToNat (rest.filter (fun c => c ≠ '_')) : Int)) else none
  | _ =>
    if digitsU cs then some ((digitsToNat (cs.filter (fun c => c ≠ '_')) : Int)) else none

/-- The SLIM VM state (`SLIM.__init__` fields). -/
structure VMState where
  mem : List (Int × Int)
  registers : List Int
  commands : List ResolvedCommand
  pointer : Int
  console : Console
deriving DecidableEq, Repr

/-- `SLIM.__init__`: empty memory, 32 zeroed registers, pointer at 0. -/
def initSLIM (commands : List ResolvedCommand) (console : Console) : VMState :=
  ⟨[], List.replicate 32 0, commands, 0, console⟩

/-- Outcome of executing one command: fall through to the next state, halt
(`HaltException` caught by `execute`), or raise an exception, carrying the
state at the moment of the raise. -/
inductive StepOut where
  | next (st : VMState)
  | halted (st : VMState)
  | raised (k : ExnKind) (st : VMState)
deriving DecidableEq, Repr

/-- Shared shape of the three-register operations: read both sources (in
source order), combine, store into `dest`, advance the pointer. -/
def binop (st : VMState) (dest src1 src2 : Int) (f : Int → Int → Except ExnKind Int) : StepOut :=
  match regGet st.registers src1 with
  | .error e => .raised e st
  | .ok a =>
    match regGet st.registers src2 with
    | .error e => .raised e st
    | .ok b =>
      match f a b with
      | .error e => .raised e st
      | .ok v =>
        match regSet st.registers dest v with
        | .error e => .raised e st
        | .ok rs => .next { st with registers := rs, pointer := st.pointer + 1 }

/-- A three-register method (`add` … `sge`): Python raises `TypeError` when
the argument count does not fit the method's signature. -/
def vmBin (st : VMState) (args : List Int) (f : Int → Int → Except ExnKind Int) : StepOut :=
  match args with
  | [d, s1, s2] => binop st d s1 s2 f
  | _ => .raised .typeError st

/-- `SLIM.ld`. -/
def vmLd (st : VMState) (args : List Int) : StepOut :=
  match args with
  | [d, a] =>
    match regGet st.registers a with
    | .error e => .raised e st
    | .ok addr =>
      match memGet st.mem addr with
      | none => .raised .keyError st
      | some v =>
        match regSet st.registers d v with
        | .error e => .raised e st
        | .ok rs => .next { st with registers := rs, pointer := st.pointer + 1 }
  | _ => .raised .typeError st

/-- `SLIM.st`. -/
def vmSt (st : VMState) (args : List Int) : StepOut :=
  match args with
  | [s, a] =>
    match regGet st.registers s with
    | .error e => .raised e st
    | .ok v =>
      match regGet st.registers a with
      | .error e => .raised e st
      | .ok addr => .next { st with mem := memSet st.mem addr v, pointer := st.pointer + 1 }
  | _ => .raised .typeError st

/-- `SLIM.li`: the immediate is stored unwrapped. -/
def vmLi (st : VMState) (args : List Int) : StepOut :=
  match args with
  | [d, k] =>
    match regSet st.registers d k with
    | .error e => .raised e st
    | .ok rs => .next { st with registers := rs, pointer := st.pointer + 1 }
  | _ => .raised .typeError st

/-- `SLIM.read`: `next()` on an exhausted iterator raises `StopIteration`;
a consumed line that does not parse as an integer raises `ValueError` (with
the line already consumed). -/
def vmRead (st : VMState) (args : List Int) : StepOut :=
  match args with
  | [d] =>
    match st.console.input with
    | [] => .raised .stopIteration st
    | line :: rest =>
      match pyIntParse line with
      | none => .raised .valueError { st with console := { st.console with input := rest } }
      | some v =>
        match regSet st.registers d v with
        | .error e => .raised e { st with console := { st.console with input := rest } }
        | .ok rs =>
          .next { st with registers := rs, pointer := st.pointer + 1,
                          console := { st.console with input := rest } }
  | _ => .raised .typeError st

/-- `SLIM.write`. -/
def vmWrite (st : VMState) (args : List Int) : StepOut :=
  match args with
  | [s] =>
    match regGet st.registers s with
    | .error e => .raised e st
    | .ok v =>
      .next { st with
              console := { st.console with output := st.console.output ++ [toString v] },
              pointer := st.pointer + 1 }
  | _ => .raised .typeError st

/-- `SLIM.j`. -/
def vmJ (st : VMState) (args : List Int) : StepOut :=
  match args with
  | [a] =>
    match regGet st.registers a with
    | .error e => .raised e st
    | .ok v => .next { st with pointer := v }
  | _ => .raised .typeError st

/-- `SLIM.jeqz`: the target register is read only when the jump is taken. -/
def vmJeqz (st : VMState) (args : List Int) : StepOut :=
  match args with
  | [s, a] =>
    match regGet st.registers s with
    | .error e => .raised e st
    | .ok v =>
      if v = 0 then
        match regGet st.registers a with
        | .error e => .raised e st
        | .ok t => .next { st with pointer := t }
      else
        .next { st with pointer := st.pointer + 1 }
  | _ => .raised .typeError st

/-- `SLIM.halt`: raises `HaltException` (caught by `execute`). -/
def vmHalt (st : VMState) (args : List Int) : StepOut :=
  match args with
  | [] => .halted st
  | _ => .raised .typeError st

/-- `SLIM.exec_command`: `getattr`-style dispatch on the opcode string.  An
opcode that names no method raises `AttributeError`.  (The class's non-method
attribute names never arrive here: the resolver only emits the 20 opcodes.) -/
def execCmd (st : VMState) (c : ResolvedCommand) : StepOut :=
  if c.cmd = "add" then vmBin st c.args (fun a b => .ok (bound_int (a + b)))
  else if c.cmd = "sub" then vmBin st c.args (fun a b => .ok (bound_int (a - b)))
  else if c.cmd = "mul" then vmBin st c.args (fun a b => .ok (bound_int (a * b)))
  else if c.cmd = "div" then
    vmBin st c.args (fun a b =>
      if b = 0 then .error .zeroDivision else .ok (bound_int (Int.fdiv a b)))
  else if c.cmd = "quo" then
    vmBin st c.args (fun a b =>
      if b = 0 then .error .zeroDivision else .ok (bound_int (Int.fdiv a b)))
  else if c.cmd = "rem" then vmBin st c.args remOp
  else if c.cmd = "seq" then vmBin st c.args (fun a b => .ok (if a = b then 1 else 0))
  else if c.cmd = "sne" then vmBin st c.args (fun a b => .ok (if a = b then 0 else 1))
  else if c.cmd = "slt" then vmBin st c.args (fun a b => .ok (if a < b then 1 else 0))
  else if c.cmd = "sgt" then vmBin st c.args (fun a b => .ok (if b < a then 1 else 0))
  else if c.cmd = "sle" then vmBin st c.args (fun a b => .ok (if a ≤ b then 1 else 0))
  else if c.cmd = "sge" then vmBin st c.args (fun a b => .ok (if b ≤ a then 1 else 0))
  else if c.cmd = "ld" then vmLd st c.args
  else if c.cmd = "st" then vmSt st c.args
  else if c.cmd = "li" then vmLi st c.args
  else if c.cmd = "read" then vmRead st c.args
  else if c.cmd = "write" then vmWrite st c.args
  else if c.cmd = "j" then vmJ st c.args
  else if c.cmd = "jeqz" then vmJeqz st c.args
  else if c.cmd = "halt" then vmHalt st c.args
  else .raised .attributeError st

/-- The opcode strings that name a `SLIM` method. -/
def vmOpcodeList : List String :=
  ["add", "sub", "mul", "div", "quo", "rem", "seq", "sne", "slt", "sgt", "sle", "sge",
   "ld", "st", "li", "read", "write", "j", "jeqz", "halt"]

/-- The result of `SLIM.execute`: normal termination (pointer out of range or
`halt`), a propagated exception, or fuel exhaustion of the embedding. -/
inductive VMOutcome where
  | done (st : VMState)
  | exn (k : ExnKind) (st : VMState)
  | outOfFuel (st : VMState)
deriving DecidableEq, Repr

/-- `SLIM.execute`: the fetch–execute loop, with explicit fuel standing in for
the Python `while`. -/
def execute : Nat → VMState → VMOutcome
  | 0, st => .outOfFuel st
  | fuel + 1, st =>
    if 0 ≤ st.pointer ∧ st.pointer < (st.commands.length : Int) then
      match st.commands.get? st.pointer.toNat with
      | none => .exn .generic st
      | some c =>
        match execCmd st c with
        | .next st' => execute fuel st'
        | .halted st' => .done st'
        | .raised k st' => .exn k st'
    else
      .done st

/-! ## worm/slim/interpreter.py — `Interpreter.interpret` -/

/-- Python `str.splitlines` for the line terminators `\n`, `\r\n`, `\r`. -/
def splitlinesGo : List Char → List Char → List String
  | [], cur => if cur.isEmpty then [] else [String.mk cur.reverse]
  | '\r' :: '\n' :: rest, cur => String.mk cur.reverse :: splitlinesGo rest []
  | '\r' :: rest, cur => String.mk cur.reverse :: splitlinesGo rest []
  | '\n' :: rest, cur => String.mk cur.reverse :: splitlinesGo rest []
  | c :: rest, cur => splitlinesGo rest (c :: cur)

/-- `code.splitlines()`. -/
def pySplitlines (s : String) : List String :=
  splitlinesGo s.data []

/-- The failure branch of `interpret`: write each error's message to the
error channel in order; a `get_message` that raises propagates at that
point and the loop stops. -/
def writeErrs : Console → List CompilationError → Console × Option ExnKind
  | c, [] => (c, none)
  | c, e :: rest =>
    match getMessage e with
    | .ok m => writeErrs { c with error := c.error ++ [m] } rest
    | .error k => (c, some k)

/-- Observable result of one `Interpreter.interpret` call: the final console,
with a raised exception or fuel exhaustion when applicable. -/
inductive InterpOutcome where
  | ok (c : Console)
  | exn (k : ExnKind) (c : Console)
  | fuelOut (c : Console)
deriving DecidableEq, Repr

/-- `Interpreter.interpret`: parse, name, resolve; on failure print each
diagnostic; on success run the VM.  Exceptions from any stage propagate to
the caller together with the console state they left behind. -/
def interpret (fuel : Nat) (code : String) (input : List String) : InterpOutcome :=
  let console : Console := ⟨input, [], []⟩
  match parse (pySplitlines code) with
  | .error e => .exn e console
  | .ok parsedVal =>
    match flatmapV (flatmapV parsedVal do_name) resolve with
    | .failure errs =>
      let r := writeErrs console errs
      match r.2 with
      | none => .ok r.1
      | some k => .exn k r.1
    | .success cmds =>
      match execute fuel (initSLIM cmds console) with
      | .done st => .ok st.console
      | .exn k st => .exn k st.console
      | .outOfFuel st => .fuelOut st.console

/-- The remainder rule as the specification phrases it: when the operands
share a sign (or either is zero) take `a mod b` directly, otherwise take
`(-a) mod (-b)`.  This definition follows the spec's words and is compared
against the source-derived remainder computation. -/
def specRem (a b : Int) : Int :=
  if signI a = signI b ∨ a = 0 ∨ b = 0 then Int.fmod a b else Int.fmod (-a) (-b)

/-- The machine state carried by a step outcome. -/
def stepSt : StepOut → VMState
  | .next st => st
  | .halted st => st
  | .raised _ st => st

/-- The five error kinds whose `get_message` is unimplemented in namer.py and
resolver.py (`BadWordError`, also unimplemented, is never constructed). -/
def isRaisingKind : CompilationError → Bool
  | .noMoreRegisters _ _ => true
  | .registerInUse _ _ => true
  | .labelInUse _ _ => true
  | .expectedRegister _ _ => true
  | .expectedLabel _ _ => true
  | _ => false

/-- Modelled from the spec: the test resource file `unknown-opcode.slim` is
not under src (only the test that loads it is); per the spec it carries the
command lines `do` and `loop` at source lines 3 and 4, with earlier lines
contributing nothing. -/
def unknownOpcodeSlim : String :=
  "; test\n\ndo\nloop"

/-- Whether a parsed line is a command. -/
def isCmdL : PLine → Bool
  | .cmd _ _ _ => true
  | _ => false

/-- Whether any line of the list is a command. -/
def containsCmd (ls : List PLine) : Bool :=
  ls.any isCmdL

/-- The number of command lines in the list — for a prefix of the program,
the command index the namer has reached. -/
def countCmds (ls : List PLine) : Nat :=
  ls.countP isCmdL

/-- Consecutive register slots starting at `base`, one per name in order —
the spec's "assign it slot `|registers|` and append", as a closed form. -/
def allocSlots (base : Nat) : List String → List (String × Nat)
  | [] => []
  | nm :: rest => (nm, base) :: allocSlots (base + 1) rest

/-- The spec's cleanliness condition for one allocation directive: each name,
at its turn, is fresh with respect to both maps and the earlier names, and
the register file still has room for it. -/
def allocClean (registers labels : List (String × Nat)) (names : List String) : Prop :=
  ∀ i nm, names.get? i = some nm →
    dictContains registers nm = false ∧ dictContains labels nm = false ∧
    nm ∉ names.take i ∧ registers.length + i < NUM_REGISTERS

/-! ## Arithmetic helper lemmas -/

theorem bound_int_wrap (x : Int) :
    bound_int x % 2 ^ 32 = x % 2 ^ 32 ∧ -2 ^ 31 ≤ bound_int x ∧ bound_int x < 2 ^ 31 := by
  have h32 : (2 : Int) ^ 32 = 4294967296 := by norm_num
  have h31 : (2 : Int) ^ 31 = 2147483648 := by norm_num
  unfold bound_int
  rw [h32, h31]
  omega

theorem bound_int_id {x : Int} (h1 : -2 ^ 31 ≤ x) (h2 : x < 2 ^ 31) : bound_int x = x := by
  have h32 : (2 : Int) ^ 32 = 4294967296 := by norm_num
  have h31 : (2 : Int) ^ 31 = 2147483648 := by norm_num
  unfold bound_int
  rw [h32, h31]
  rw [h31] at h1 h2
  omega

theorem fdiv_neg_neg (a b : Int) : Int.fdiv (-a) (-b) = Int.fdiv a b := by
  cases a with
  | ofNat m =>
    cases m with
    | zero => simp
    | succ m =>
      cases b with
      | ofNat n =>
        cases n with
        | zero =>
          show Int.fdiv (-(Int.ofNat (m + 1))) 0 = Int.fdiv (Int.ofNat (m + 1)) 0
          rw [Int.fdiv_zero, Int.fdiv_zero]
        | succ n => rfl
      | negSucc n => rfl
  | negSucc m =>
    cases b with
    | ofNat n =>
      cases n with
      | zero =>
        show Int.fdiv (-(Int.negSucc m)) 0 = Int.fdiv (Int.negSucc m) 0
        rw [Int.fdiv_zero, Int.fdiv_zero]
      | succ n => rfl
    | negSucc n => rfl

theorem fmod_neg_neg (a b : Int) : Int.fmod (-a) (-b) = -Int.fmod a b := by
  rw [Int.fmod_def, Int.fmod_def, fdiv_neg_neg]
  ring

theorem fmod_bounds_pos (x : Int) {m : Int} (hm : 0 < m) :
    0 ≤ Int.fmod x m ∧ Int.fmod x m < m :=
  ⟨Int.fmod_nonneg' x hm, Int.fmod_lt_of_pos x hm⟩

theorem fmod_bounds_neg (x : Int) {m : Int} (hm : m < 0) :
    m < Int.fmod x m ∧ Int.fmod x m ≤ 0 := by
  have h := fmod_bounds_pos (-x) (m := -m) (by omega)
  have hx : Int.fmod x m = -Int.fmod (-x) (-m) := by
    rw [fmod_neg_neg, neg_neg]
  omega

/-- `fmod` bounds for any nonzero divisor, by sign cases. -/
theorem fmod_range (x : Int) {m : Int} (hm1 : -2 ^ 31 ≤ m) (hm2 : m ≤ 2 ^ 31) (hm : m ≠ 0) :
    -2 ^ 31 ≤ Int.fmod x m ∧ Int.fmod x m < 2 ^ 31 := by
  rcases lt_or_gt_of_ne hm with h | h
  · have := fmod_bounds_neg x h
    constructor <;> omega
  · have := fmod_bounds_pos x h
    constructor <;> omega

/-! ## VM evaluation helper lemmas -/

theorem binop_next {st : VMState} {d s1 s2 : Int} {f : Int → Int → Except ExnKind Int}
    {a b v : Int} {rs : List Int}
    (h1 : regGet st.registers s1 = .ok a) (h2 : regGet st.registers s2 = .ok b)
    (hf : f a b = .ok v) (hs : regSet st.registers d v = .ok rs) :
    binop st d s1 s2 f = .next { st with registers := rs, pointer := st.pointer + 1 } := by
  simp [binop, h1, h2, hf, hs]

theorem regGet_can0 (a b : Int) : regGet (a :: b :: List.replicate 30 0) 0 = .ok a := rfl

theorem regGet_can1 (a b : Int) : regGet (a :: b :: List.replicate 30 0) 1 = .ok b := rfl

theorem regSet_can2 (a b v : Int) :
    regSet (a :: b :: List.replicate 30 0) 2 v = .ok (a :: b :: v :: List.replicate 29 0) := rfl

/-- The three-register opcodes reduce to `binop` on their operation. -/
theorem execCmd_binop_can (st : VMState) (a b v : Int) (f : Int → Int → Except ExnKind Int)
    (cmd : String) (hregs : st.registers = a :: b :: List.replicate 30 0)
    (hcmd : execCmd st ⟨cmd, [2, 0, 1]⟩ = binop st 2 0 1 f) (hf : f a b = .ok v) :
    execCmd st ⟨cmd, [2, 0, 1]⟩ =
      .next { st with registers := a :: b :: v :: List.replicate 29 0,
                      pointer := st.pointer + 1 } := by
  rw [hcmd]
  exact binop_next (hregs ▸ regGet_can0 a b) (hregs ▸ regGet_can1 a b) hf
    (hregs ▸ regSet_can2 a b v)

/-- C5: for all 32-bit register values `a` and `b`, each arithmetic opcode
`add`/`sub`/`mul`/`div`/`quo`/`rem` stores in the destination register the
exact mathematical result wrapped by `bound_int`, which is congruent to it
modulo `2^32` and lies in `[-2^31, 2^31)`; in particular
`add (2^31 - 1) 1` stores `-2^31`. -/
theorem c5_arith_wrap32 (st : VMState) (a b : Int)
    (hregs : st.registers = a :: b :: List.replicate 30 0)
    (ha1 : -2 ^ 31 ≤ a) (ha2 : a < 2 ^ 31) (hb1 : -2 ^ 31 ≤ b) (hb2 : b < 2 ^ 31) :
    (execCmd st ⟨"add", [2, 0, 1]⟩ =
        .next { st with registers := a :: b :: bound_int (a + b) :: List.replicate 29 0,
                        pointer := st.pointer + 1 } ∧
      bound_int (a + b) % 2 ^ 32 = (a + b) % 2 ^ 32 ∧
      -2 ^ 31 ≤ bound_int (a + b) ∧ bound_int (a + b) < 2 ^ 31) ∧
    (execCmd st ⟨"sub", [2, 0, 1]⟩ =
        .next { st with registers := a :: b :: bound_int (a - b) :: List.replicate 29 0,
                        pointer := st.pointer + 1 } ∧
      bound_int (a - b) % 2 ^ 32 = (a - b) % 2 ^ 32 ∧
      -2 ^ 31 ≤ bound_int (a - b) ∧ bound_int (a - b) < 2 ^ 31) ∧
    (execCmd st ⟨"mul", [2, 0, 1]⟩ =
        .next { st with registers := a :: b :: bound_int (a * b) :: List.replicate 29 0,
                        pointer := st.pointer + 1 } ∧
      bound_int (a * b) % 2 ^ 32 = (a * b) % 2 ^ 32 ∧
      -2 ^ 31 ≤ bound_int (a * b) ∧ bound_int (a * b) < 2 ^ 31) ∧
    (b ≠ 0 →
      (execCmd st ⟨"div", [2, 0, 1]⟩ =
          .next { st with
                  registers := a :: b :: bound_int (Int.fdiv a b) :: List.replicate 29 0,
                  pointer := st.pointer + 1 } ∧
        execCmd st ⟨"quo", [2, 0, 1]⟩ =
          .next { st with
                  registers := a :: b :: bound_int (Int.fdiv a b) :: List.replicate 29 0,
                  pointer := st.pointer + 1 } ∧
        bound_int (Int.fdiv a b) % 2 ^ 32 = Int.fdiv a b % 2 ^ 32 ∧
        -2 ^ 31 ≤ bound_int (Int.fdiv a b) ∧ bound_int (Int.fdiv a b) < 2 ^ 31) ∧
      (execCmd st ⟨"rem", [2, 0, 1]⟩ =
          .next { st with
                  registers := a :: b ::
                    bound_int (Int.fmod (swap_sign a b).1 (swap_sign a b).2) ::
                    List.replicate 29 0,
                  pointer := st.pointer + 1 } ∧
        bound_int (Int.fmod (swap_sign a b).1 (swap_sign a b).2) % 2 ^ 32 =
          Int.fmod (swap_sign a b).1 (swap_sign a b).2 % 2 ^ 32 ∧
        -2 ^ 31 ≤ bound_int (Int.fmod (swap_sign a b).1 (swap_sign a b).2) ∧
        bound_int (Int.fmod (swap_sign a b).1 (swap_sign a b).2) < 2 ^ 31)) ∧
    bound_int (2 ^ 31 - 1 + 1) = -2 ^ 31 := by
  refine ⟨⟨?_, bound_int_wrap _⟩, ⟨?_, bound_int_wrap _⟩, ⟨?_, bound_int_wrap _⟩,
    fun hb => ⟨⟨?_, ?_, bound_int_wrap _⟩, ?_, bound_int_wrap _⟩, ?_⟩
  · exact execCmd_binop_can st a b _ (fun x y => .ok (bound_int (x + y))) "add" hregs rfl rfl
  · exact execCmd_binop_can st a b _ (fun x y => .ok (bound_int (x - y))) "sub" hregs rfl rfl
  · exact execCmd_binop_can st a b _ (fun x y => .ok (bound_int (x * y))) "mul" hregs rfl rfl
  · exact execCmd_binop_can st a b _
      (fun x y => if y = 0 then .error .zeroDivision else .ok (bound_int (Int.fdiv x y)))
      "div" hregs rfl (by simp [hb])
  · exact execCmd_binop_can st a b _
      (fun x y => if y = 0 then .error .zeroDivision else .ok (bound_int (Int.fdiv x y)))
      "quo" hregs rfl (by simp [hb])
  · refine execCmd_binop_can st a b _ remOp "rem" hregs rfl ?_
    have hz : (swap_sign a b).2 ≠ 0 := by
      unfold swap_sign
      split <;> simpa using hb
    simp [remOp, hz]
  · have h32 : (2 : Int) ^ 31 = 2147483648 := by norm_num
    unfold bound_int
    rw [h32]
    norm_num

theorem swap_sign_same {a b : Int} (h : signI a = signI b) :
    (swap_sign a b).1 = a ∧ (swap_sign a b).2 = b := by
  unfold swap_sign
  rw [if_pos h]
  exact ⟨rfl, rfl⟩

theorem swap_sign_diff {a b : Int} (h : ¬signI a = signI b) :
    (swap_sign a b).1 = -a ∧ (swap_sign a b).2 = -b := by
  unfold swap_sign
  rw [if_neg h]
  exact ⟨rfl, rfl⟩

/-- The source's remainder computation agrees with the spec's description for
operands in the 32-bit range with a nonzero divisor. -/
theorem remOp_eq_specRem {a b : Int} (ha1 : -2 ^ 31 ≤ a) (ha2 : a < 2 ^ 31)
    (hb1 : -2 ^ 31 ≤ b) (hb2 : b < 2 ^ 31) (hb : b ≠ 0) :
    remOp a b = .ok (specRem a b) := by
  unfold remOp specRem
  by_cases hs : signI a = signI b
  · obtain ⟨h1, h2⟩ := swap_sign_same hs
    rw [h1, h2, if_neg hb, if_pos (Or.inl hs)]
    have hr := fmod_range a (m := b) (by omega) (by omega) hb
    rw [bound_int_id hr.1 hr.2]
  · obtain ⟨h1, h2⟩ := swap_sign_diff hs
    have hnb : -b ≠ 0 := by omega
    rw [h1, h2, if_neg hnb]
    by_cases ha : a = 0
    · subst ha
      rw [if_pos (Or.inr (Or.inl rfl))]
      simp [Int.zero_fmod, bound_int]
    · rw [if_neg (by simp [hs, ha, hb])]
      have hr := fmod_range (-a) (m := -b) (by omega) (by omega) hnb
      rw [bound_int_id hr.1 hr.2]

/-- The result of the spec's remainder has the sign of the (original)
dividend, unless it is zero. -/
theorem specRem_sign {a b : Int} (hb : b ≠ 0) :
    specRem a b = 0 ∨ signI (specRem a b) = signI a := by
  unfold specRem
  by_cases ha : a = 0
  · subst ha
    rw [if_pos (Or.inr (Or.inl rfl))]
    simp [Int.zero_fmod]
  · by_cases hs : signI a = signI b
    · rw [if_pos (Or.inl hs)]
      rcases lt_or_gt_of_ne hb with hneg | hpos
      · have hf := fmod_bounds_neg a hneg
        have hsa : a < 0 := by
          unfold signI at hs
          split_ifs at hs <;> omega
        by_cases hz : Int.fmod a b = 0
        · exact Or.inl hz
        · right
          unfold signI
          split_ifs <;> omega
      · have hf := fmod_bounds_pos a hpos
        have hsa : 0 < a := by
          unfold signI at hs
          split_ifs at hs <;> omega
        by_cases hz : Int.fmod a b = 0
        · exact Or.inl hz
        · right
          unfold signI
          split_ifs <;> omega
    · rw [if_neg (by simp [hs, ha, hb])]
      rcases lt_or_gt_of_ne hb with hneg | hpos
      · have hf := fmod_bounds_pos (-a) (m := -b) (by omega)
        have hsa : 0 < a := by
          unfold signI at hs
          split_ifs at hs <;> omega
        by_cases hz : Int.fmod (-a) (-b) = 0
        · exact Or.inl hz
        · right
          unfold signI
          split_ifs <;> omega
      · have hf := fmod_bounds_neg (-a) (m := -b) (by omega)
        have hsa : a < 0 := by
          unfold signI at hs
          split_ifs at hs <;> omega
        by_cases hz : Int.fmod (-a) (-b) = 0
        · exact Or.inl hz
        · right
          unfold signI
          split_ifs <;> omega

/-- C6: for register operands `a`, `b` with `b` nonzero, `rem` computes the
spec's case split (shared sign or a zero operand: `a mod b`; otherwise
`(-a) mod (-b)`), the result is zero or has the dividend's sign, and
concretely `rem (-7) 2 = -1` and `rem 7 (-2) = 1`. -/
theorem c6_rem_sign (a b : Int) (ha1 : -2 ^ 31 ≤ a) (ha2 : a < 2 ^ 31)
    (hb1 : -2 ^ 31 ≤ b) (hb2 : b < 2 ^ 31) (hb : b ≠ 0) :
    remOp a b = .ok (specRem a b) ∧
    (specRem a b = 0 ∨ signI (specRem a b) = signI a) ∧
    remOp (-7) 2 = .ok (-1) ∧ remOp 7 (-2) = .ok 1 ∧
    (∀ st : VMState, st.registers = a :: b :: List.replicate 30 0 →
      execCmd st ⟨"rem", [2, 0, 1]⟩ =
        .next { st with registers := a :: b :: specRem a b :: List.replicate 29 0,
                        pointer := st.pointer + 1 }) := by
  refine ⟨remOp_eq_specRem ha1 ha2 hb1 hb2 hb, specRem_sign hb, by rfl, by rfl,
    fun st hregs =>
      execCmd_binop_can st a b _ remOp "rem" hregs rfl
        (remOp_eq_specRem ha1 ha2 hb1 hb2 hb)⟩

/-- Witness for C6 at `a = -7`, `b = 2`. -/
theorem c6_rem_sign_witness :
    remOp (-7) 2 = .ok (specRem (-7) 2) ∧ remOp (-7) 2 = .ok (-1) ∧ remOp 7 (-2) = .ok 1 := by
  have h := c6_rem_sign (-7) 2 (by norm_num) (by norm_num) (by norm_num) (by norm_num)
    (by norm_num)
  exact ⟨h.1, h.2.2.1, h.2.2.2.1⟩

/-- Witness for C5 at `a = 2^31 - 1`, `b = 1`: the `add` step and the
overflow identity. -/
theorem c5_arith_wrap32_witness :
    execCmd ⟨[], (2 ^ 31 - 1 : Int) :: 1 :: List.replicate 30 0, [], 0, ⟨[], [], []⟩⟩
        ⟨"add", [2, 0, 1]⟩ =
      .next ⟨[], (2 ^ 31 - 1 : Int) :: 1 ::
        bound_int (2 ^ 31 - 1 + 1) :: List.replicate 29 0, [], 1, ⟨[], [], []⟩⟩ ∧
    bound_int (2 ^ 31 - 1 + 1) = -2 ^ 31 := by
  have h := c5_arith_wrap32 ⟨[], (2 ^ 31 - 1 : Int) :: 1 :: List.replicate 30 0, [], 0,
      ⟨[], [], []⟩⟩ (2 ^ 31 - 1) 1 rfl (by norm_num) (by norm_num) (by norm_num) (by norm_num)
  exact ⟨h.1.1, h.2.2.2.2⟩

end Worm

namespace Worm

/-! ## C3/C9 helper lemmas about the step function -/

/-- `binop` never writes to the console's error channel. -/
theorem binop_error_channel (st : VMState) (d s1 s2 : Int)
    (f : Int → Int → Except ExnKind Int) :
    (stepSt (binop st d s1 s2 f)).console.error = st.console.error := by
  unfold binop
  repeat' split
  all_goals rfl

theorem vmBin_error_channel (st : VMState) (args : List Int)
    (f : Int → Int → Except ExnKind Int) :
    (stepSt (vmBin st args f)).console.error = st.console.error := by
  unfold vmBin
  split
  · apply binop_error_channel
  · rfl

theorem vmLd_error_channel (st : VMState) (args : List Int) :
    (stepSt (vmLd st args)).console.error = st.console.error := by
  unfold vmLd
  repeat' split
  all_goals rfl

theorem vmSt_error_channel (st : VMState) (args : List Int) :
    (stepSt (vmSt st args)).console.error = st.console.error := by
  unfold vmSt
  repeat' split
  all_goals rfl

theorem vmLi_error_channel (st : VMState) (args : List Int) :
    (stepSt (vmLi st args)).console.error = st.console.error := by
  unfold vmLi
  repeat' split
  all_goals rfl

theorem vmRead_error_channel (st : VMState) (args : List Int) :
    (stepSt (vmRead st args)).console.error = st.console.error := by
  unfold vmRead
  repeat' split
  all_goals rfl

theorem vmWrite_error_channel (st : VMState) (args : List Int) :
    (stepSt (vmWrite st args)).console.error = st.console.error := by
  unfold vmWrite
  repeat' split
  all_goals rfl

theorem vmJ_error_channel (st : VMState) (args : List Int) :
    (stepSt (vmJ st args)).console.error = st.console.error := by
  unfold vmJ
  repeat' split
  all_goals rfl

theorem vmJeqz_error_channel (st : VMState) (args : List Int) :
    (stepSt (vmJeqz st args)).console.error = st.console.error := by
  unfold vmJeqz
  repeat' split
  all_goals rfl

theorem vmHalt_error_channel (st : VMState) (args : List Int) :
    (stepSt (vmHalt st args)).console.error = st.console.error := by
  unfold vmHalt
  split
  all_goals rfl

/-- A command whose opcode names no `SLIM` method raises `AttributeError`. -/
theorem execCmd_not_opcode (st : VMState) (cmd : String) (args : List Int)
    (h : cmd ∉ vmOpcodeList) : execCmd st ⟨cmd, args⟩ = .raised .attributeError st := by
  simp only [vmOpcodeList, List.mem_cons, List.not_mem_nil, or_false, not_or] at h
  obtain ⟨h1, h2, h3, h4, h5, h6, h7, h8, h9, h10, h11, h12, h13, h14, h15, h16, h17, h18,
    h19, h20⟩ := h
  simp [execCmd, h1, h2, h3, h4, h5, h6, h7, h8, h9, h10, h11, h12, h13, h14, h15, h16, h17,
    h18, h19, h20]

/-- No opcode ever writes to the console's error channel. -/
theorem execCmd_error_channel (st : VMState) (c : ResolvedCommand) :
    (stepSt (execCmd st c)).console.error = st.console.error := by
  rcases c with ⟨cmd, args⟩
  by_cases hm : cmd ∈ vmOpcodeList
  · fin_cases hm
    all_goals first
      | exact vmBin_error_channel st args _
      | exact vmLd_error_channel st args
      | exact vmSt_error_channel st args
      | exact vmLi_error_channel st args
      | exact vmRead_error_channel st args
      | exact vmWrite_error_channel st args
      | exact vmJ_error_channel st args
      | exact vmJeqz_error_channel st args
      | exact vmHalt_error_channel st args
  · rw [execCmd_not_opcode st cmd args hm]
    rfl

/-- An exception escaping `execute` leaves the error channel exactly as it
was when execution started. -/
theorem execute_exn_error_channel :
    ∀ (fuel : Nat) (st : VMState) (k : ExnKind) (st' : VMState),
      execute fuel st = .exn k st' → st'.console.error = st.console.error := by
  intro fuel
  induction fuel with
  | zero => intro st k st' h; cases h
  | succ n ih =>
    intro st k st' h
    unfold execute at h
    split at h
    · split at h
      · cases h
        rfl
      · rename_i c hc
        cases hstep : execCmd st c with
        | next st1 =>
          rw [hstep] at h
          have h1 := execCmd_error_channel st c
          rw [hstep] at h1
          exact (ih st1 k st' h).trans h1
        | halted st1 => rw [hstep] at h; cases h
        | raised k1 st1 =>
          rw [hstep] at h
          cases h
          have h1 := execCmd_error_channel st c
          rw [hstep] at h1
          exact h1
    · cases h

end Worm

namespace Worm

/-! ## C3: runtime failures propagate as exceptions -/

/-- C3 (amended): a zero second operand in any of `div`, `quo` and `rem`, a
`ld` of an unwritten address, and a non-integer `read` line terminate
execution by raising an exception (`ZeroDivisionError` / `KeyError` /
`ValueError`) that propagates out of the interpreter; nothing is written to
the console's error channel by the VM. -/
theorem c3_runtime_exception :
    (∀ (st : VMState) (d s1 s2 a : Int),
      regGet st.registers s1 = .ok a → regGet st.registers s2 = .ok 0 →
      execCmd st ⟨"div", [d, s1, s2]⟩ = .raised .zeroDivision st) ∧
    (∀ (st : VMState) (d s1 s2 a : Int),
      regGet st.registers s1 = .ok a → regGet st.registers s2 = .ok 0 →
      execCmd st ⟨"quo", [d, s1, s2]⟩ = .raised .zeroDivision st) ∧
    (∀ (st : VMState) (d s1 s2 a : Int),
      regGet st.registers s1 = .ok a → regGet st.registers s2 = .ok 0 →
      execCmd st ⟨"rem", [d, s1, s2]⟩ = .raised .zeroDivision st) ∧
    (∀ (st : VMState) (d a v : Int),
      regGet st.registers a = .ok v → memGet st.mem v = none →
      execCmd st ⟨"ld", [d, a]⟩ = .raised .keyError st) ∧
    (∀ (st : VMState) (d : Int) (line : String) (rest : List String),
      st.console.input = line :: rest → pyIntParse line = none →
      execCmd st ⟨"read", [d]⟩ =
        .raised .valueError { st with console := { st.console with input := rest } }) ∧
    (∀ (fuel : Nat) (st : VMState) (k : ExnKind) (st' : VMState),
      execute fuel st = .exn k st' → st'.console.error = st.console.error) ∧
    (∀ (fuel : Nat) (code : String) (input : List String)
        (pv : Validation (List PLine) CompilationError) (cmds : List ResolvedCommand)
        (k : ExnKind) (st' : VMState),
      parse (pySplitlines code) = .ok pv →
      flatmapV (flatmapV pv do_name) resolve = .success cmds →
      execute fuel (initSLIM cmds ⟨input, [], []⟩) = .exn k st' →
      interpret fuel code input = .exn k st'.console ∧ st'.console.error = []) := by
  refine ⟨?_, ?_, ?_, ?_, ?_, execute_exn_error_channel, ?_⟩
  · intro st d s1 s2 a h1 h2
    have e : execCmd st ⟨"div", [d, s1, s2]⟩ = binop st d s1 s2
        (fun x y => if y = 0 then .error .zeroDivision else .ok (bound_int (Int.fdiv x y))) :=
      rfl
    rw [e]
    unfold binop
    rw [h1, h2]
    simp
  · intro st d s1 s2 a h1 h2
    have e : execCmd st ⟨"quo", [d, s1, s2]⟩ = binop st d s1 s2
        (fun x y => if y = 0 then .error .zeroDivision else .ok (bound_int (Int.fdiv x y))) :=
      rfl
    rw [e]
    unfold binop
    rw [h1, h2]
    simp
  · intro st d s1 s2 a h1 h2
    have e : execCmd st ⟨"rem", [d, s1, s2]⟩ = binop st d s1 s2 remOp := rfl
    rw [e]
    unfold binop
    rw [h1, h2]
    have hz : remOp a 0 = .error .zeroDivision := by
      unfold remOp
      rw [if_pos]
      unfold swap_sign
      split_ifs
      · rfl
      · norm_num
    simp only [hz]
  · intro st d a v h1 h2
    have e : execCmd st ⟨"ld", [d, a]⟩ = vmLd st [d, a] := rfl
    rw [e]
    unfold vmLd
    simp only [h1, h2]
  · intro st d line rest h1 h2
    have e : execCmd st ⟨"read", [d]⟩ = vmRead st [d] := rfl
    rw [e]
    unfold vmRead
    simp only [h1, h2]
  · intro fuel code input pv cmds k st' hp hres hex
    have herr := execute_exn_error_channel fuel _ k st' hex
    refine ⟨?_, herr⟩
    unfold interpret
    rw [hp]
    simp only [hres]
    rw [hex]

/-- C3, counterexample to the claim as stated: a `div` by zero terminates by
raising `ZeroDivisionError`, with the error channel still empty — no
diagnostic is written to it. -/
theorem c3_counterexample :
    execute 1 (initSLIM [⟨"div", [0, 0, 0]⟩] ⟨[], [], []⟩) =
      .exn .zeroDivision (initSLIM [⟨"div", [0, 0, 0]⟩] ⟨[], [], []⟩) ∧
    (initSLIM [⟨"div", [0, 0, 0]⟩] ⟨[], [], []⟩).console.error = [] :=
  ⟨rfl, rfl⟩

/-- Witness for C3 at the program `div 0, 0, 0`. -/
theorem c3_runtime_exception_witness :
    interpret 1 "div 0, 0, 0" [] = .exn .zeroDivision ⟨[], [], []⟩ ∧
    (⟨[], [], []⟩ : Console).error = [] :=
  c3_runtime_exception.2.2.2.2.2.2 1 "div 0, 0, 0" []
    (.success [.cmd "div" ["0", "0", "0"] 1]) [⟨"div", [0, 0, 0]⟩] .zeroDivision
    (initSLIM [⟨"div", [0, 0, 0]⟩] ⟨[], [], []⟩) rfl rfl rfl

/-! ## C4: the parser raises on the first unparseable line -/

/-- C4: on an input with unparseable lines (here two of them), `parse` does
not return a `Failure` with one error per bad line — it raises a bare
`Exception` at the first bad line and reports nothing. -/
theorem c4_parse_raises : parse ["123", "456"] = .error .generic := rfl

end Worm

namespace Worm

/-! ## C9: the register-file range invariant -/

/-- If the operation's result is always in the 32-bit range, a successful
`binop` step keeps every register in range. -/
theorem binop_preserves {st : VMState} {d s1 s2 : Int} {f : Int → Int → Except ExnKind Int}
    {st' : VMState}
    (hf : ∀ a b v, f a b = .ok v → -2 ^ 31 ≤ v ∧ v < 2 ^ 31)
    (hr : ∀ r ∈ st.registers, -2 ^ 31 ≤ r ∧ r < 2 ^ 31)
    (h : binop st d s1 s2 f = .next st') :
    ∀ r ∈ st'.registers, -2 ^ 31 ≤ r ∧ r < 2 ^ 31 := by
  unfold binop at h
  cases hga : regGet st.registers s1 with
  | error e => simp only [hga] at h; cases h
  | ok a =>
    simp only [hga] at h
    cases hgb : regGet st.registers s2 with
    | error e => simp only [hgb] at h; cases h
    | ok b =>
      simp only [hgb] at h
      cases hfv : f a b with
      | error e => simp only [hfv] at h; cases h
      | ok v =>
        simp only [hfv] at h
        cases hrs : regSet st.registers d v with
        | error e => simp only [hrs] at h; cases h
        | ok rs =>
          simp only [hrs] at h
          cases h
          intro r hrmem
          unfold regSet at hrs
          split_ifs at hrs
          · cases hrs
            rcases List.mem_or_eq_of_mem_set hrmem with hmem | rfl
            · exact hr r hmem
            · exact hf a b _ hfv
          · cases hrs
            rcases List.mem_or_eq_of_mem_set hrmem with hmem | rfl
            · exact hr r hmem
            · exact hf a b _ hfv

/-- `vmBin` version of `binop_preserves`. -/
theorem vmBin_preserves {st : VMState} {args : List Int} {f : Int → Int → Except ExnKind Int}
    {st' : VMState}
    (hf : ∀ a b v, f a b = .ok v → -2 ^ 31 ≤ v ∧ v < 2 ^ 31)
    (hr : ∀ r ∈ st.registers, -2 ^ 31 ≤ r ∧ r < 2 ^ 31)
    (h : vmBin st args f = .next st') :
    ∀ r ∈ st'.registers, -2 ^ 31 ≤ r ∧ r < 2 ^ 31 := by
  unfold vmBin at h
  split at h
  · exact binop_preserves hf hr h
  · cases h

/-- C9 (amended): the register file starts as 32 zeros, and every arithmetic
and comparison opcode preserves the 32-bit range invariant (their stored
results are wrapped or boolean); `li` and `read` store their values unwrapped
and are exempt. -/
theorem c9_register_invariant :
    (∀ (cmds : List ResolvedCommand) (console : Console),
      (initSLIM cmds console).registers = List.replicate 32 0) ∧
    (∀ (st st' : VMState) (c : ResolvedCommand),
      c.cmd ∈ ["add", "sub", "mul", "div", "quo", "rem",
               "seq", "sne", "slt", "sgt", "sle", "sge"] →
      (∀ r ∈ st.registers, -2 ^ 31 ≤ r ∧ r < 2 ^ 31) →
      execCmd st c = .next st' →
      ∀ r ∈ st'.registers, -2 ^ 31 ≤ r ∧ r < 2 ^ 31) := by
  refine ⟨fun cmds console => rfl, ?_⟩
  intro st st' c hmem hr h
  rcases c with ⟨cmd, args⟩
  fin_cases hmem
  · exact vmBin_preserves (fun a b v hv => by cases hv; exact (bound_int_wrap _).2) hr h
  · exact vmBin_preserves (fun a b v hv => by cases hv; exact (bound_int_wrap _).2) hr h
  · exact vmBin_preserves (fun a b v hv => by cases hv; exact (bound_int_wrap _).2) hr h
  · exact vmBin_preserves
      (fun a b v hv => by
        split_ifs at hv with hb
        cases hv
        exact (bound_int_wrap _).2) hr h
  · exact vmBin_preserves
      (fun a b v hv => by
        split_ifs at hv with hb
        cases hv
        exact (bound_int_wrap _).2) hr h
  · exact vmBin_preserves
      (fun a b v hv => by
        unfold remOp at hv
        split_ifs at hv with hb
        cases hv
        exact (bound_int_wrap _).2) hr h
  · exact vmBin_preserves
      (fun a b v hv => by cases hv; split_ifs <;> norm_num) hr h
  · exact vmBin_preserves
      (fun a b v hv => by cases hv; split_ifs <;> norm_num) hr h
  · exact vmBin_preserves
      (fun a b v hv => by cases hv; split_ifs <;> norm_num) hr h
  · exact vmBin_preserves
      (fun a b v hv => by cases hv; split_ifs <;> norm_num) hr h
  · exact vmBin_preserves
      (fun a b v hv => by cases hv; split_ifs <;> norm_num) hr h
  · exact vmBin_preserves
      (fun a b v hv => by cases hv; split_ifs <;> norm_num) hr h

/-- C9, counterexample to the claim as stated: `li` with an immediate of
`2^32` (and `read` of the line `"4294967296"`) put `4294967296` into register
0, a value outside `[-2^31, 2^31)` — the i32 invariant is not preserved by
every instruction. -/
theorem c9_counterexample :
    execute 2 (initSLIM [⟨"li", [0, 4294967296]⟩] ⟨[], [], []⟩) =
      .done ⟨[], (4294967296 : Int) :: List.replicate 31 0,
        [⟨"li", [0, 4294967296]⟩], 1, ⟨[], [], []⟩⟩ ∧
    execute 2 (initSLIM [⟨"read", [0]⟩] ⟨["4294967296"], [], []⟩) =
      .done ⟨[], (4294967296 : Int) :: List.replicate 31 0,
        [⟨"read", [0]⟩], 1, ⟨[], [], []⟩⟩ ∧
    ¬((4294967296 : Int) < 2 ^ 31) := by
  refine ⟨rfl, rfl, by norm_num⟩

/-- Witness for C9: the initial register file, and one `add` step from it. -/
theorem c9_register_invariant_witness :
    (initSLIM [] ⟨[], [], []⟩).registers = List.replicate 32 0 ∧
    (∀ r ∈ ({ initSLIM [⟨"add", [0, 0, 0]⟩] ⟨[], [], []⟩ with
              registers := (List.replicate 32 (0 : Int)).set 0 (bound_int (0 + 0)),
              pointer := 1 } : VMState).registers,
      -2 ^ 31 ≤ r ∧ r < 2 ^ 31) := by
  refine ⟨c9_register_invariant.1 [] ⟨[], [], []⟩, ?_⟩
  exact c9_register_invariant.2 (initSLIM [⟨"add", [0, 0, 0]⟩] ⟨[], [], []⟩) _
    ⟨"add", [0, 0, 0]⟩ (by decide) (by decide) rfl

end Worm

namespace Worm

/-! ## C8: unknown-opcode diagnostics -/

theorem resolveVisit_unknown (np : NamedProgram) (nc : NamedCommand)
    (h : COMMANDS nc.cmd = none) :
    resolveVisit np nc = .failure [.unknownOpcode nc.cmd nc.line] := by
  simp only [resolveVisit, h]

theorem failsOf_map_unknown (np : NamedProgram) (ls : List NamedCommand)
    (h : ∀ l ∈ ls, COMMANDS l.cmd = none) :
    failsOf (ls.map (resolveVisit np)) =
      ls.map (fun l => CompilationError.unknownOpcode l.cmd l.line) := by
  induction ls with
  | nil => rfl
  | cons l rest ih =>
    unfold failsOf at ih ⊢
    simp only [List.map_cons, List.foldr_cons,
      resolveVisit_unknown np l (h l (by simp)), ih (fun x hx => h x (by simp [hx]))]
    rfl

/-- A named program whose commands all carry unknown opcodes resolves to the
failure list with exactly one `UnknownOpcodeError` per command, in order. -/
theorem resolve_all_unknown (np : NamedProgram)
    (hu : ∀ l ∈ np.lines, COMMANDS l.cmd = none) (hne : np.lines ≠ []) :
    resolve np = .failure (np.lines.map (fun l => .unknownOpcode l.cmd l.line)) := by
  unfold resolve sequenceV
  rw [failsOf_map_unknown np np.lines hu]
  have h1 : (failuresOf (np.lines.map (resolveVisit np))).isEmpty = false := by
    cases hl : np.lines with
    | nil => exact absurd hl hne
    | cons a as =>
      rw [List.map_cons, resolveVisit_unknown np a (hu a (by rw [hl]; simp))]
      unfold failuresOf
      rw [List.filter_cons]
      simp
  simp [h1]

/-- Writing a list of errors whose messages are all implemented appends the
messages in order and raises nothing. -/
theorem writeErrs_ok_msgs (c : Console) (errs : List CompilationError) (msgs : List String)
    (h : errs.map getMessage = msgs.map .ok) :
    writeErrs c errs = ({ c with error := c.error ++ msgs }, none) := by
  induction errs generalizing c msgs with
  | nil =>
    cases msgs with
    | nil => simp [writeErrs]
    | cons m ms => simp at h
  | cons e rest ih =>
    cases msgs with
    | nil => simp at h
    | cons m ms =>
      simp only [List.map_cons, List.cons.injEq] at h
      obtain ⟨h1, h2⟩ := h
      unfold writeErrs
      simp only [h1]
      rw [ih { c with error := c.error ++ [m] } ms h2]
      simp

/-- C8: when every command line of the (parsed and named) program carries an
unknown opcode, `interpret` writes to the error channel exactly one line per
command, of the form `Unknown opcode '<x>' in line <n>.` with `<n>` the
1-based source line number, writes nothing to standard output, and executes
no command (the VM is never started). -/
theorem c8_unknown_opcode (code : String) (input : List String) (fuel : Nat)
    (plines : List PLine) (np : NamedProgram)
    (hp : parse (pySplitlines code) = .ok (.success plines))
    (hn : do_name plines = .success np)
    (hne : np.lines ≠ [])
    (hu : ∀ l ∈ np.lines, COMMANDS l.cmd = none) :
    interpret fuel code input =
      .ok ⟨input, [],
        np.lines.map (fun l =>
          "Unknown opcode '" ++ l.cmd ++ "' in line " ++ toString l.line ++ ".")⟩ := by
  unfold interpret
  rw [hp]
  simp only [flatmapV, hn]
  simp only [resolve_all_unknown np hu hne]
  simp only [writeErrs_ok_msgs ⟨input, [], []⟩
    (np.lines.map (fun l => CompilationError.unknownOpcode l.cmd l.line))
    (np.lines.map (fun l =>
      "Unknown opcode '" ++ l.cmd ++ "' in line " ++ toString l.line ++ "."))
    (by simp only [List.map_map]; rfl)]
  simp

/-- Witness for C8 on the spec-modelled `unknown-opcode.slim`. -/
theorem c8_unknown_opcode_witness :
    interpret 0 unknownOpcodeSlim [] =
      .ok ⟨[], [], ["Unknown opcode 'do' in line 3.", "Unknown opcode 'loop' in line 4."]⟩ :=
  c8_unknown_opcode unknownOpcodeSlim [] 0
    [.cmd "do" [] 3, .cmd "loop" [] 4]
    ⟨[⟨"do", [], 3⟩, ⟨"loop", [], 4⟩], [], []⟩ rfl rfl (by decide) (by decide)

end Worm

namespace Worm

/-! ## C10: unimplemented error messages raise NotImplementedError -/

/-- Any raising `get_message` raises precisely `NotImplementedError`. -/
theorem getMessage_error_kind (e : CompilationError) (k : ExnKind)
    (h : getMessage e = .error k) : k = .notImplemented := by
  cases e <;> simp only [getMessage] at h <;> cases h <;> rfl

/-- A kind whose message is implemented is not one of the raising kinds. -/
theorem getMessage_ok_not_raising (e : CompilationError) (m : String)
    (h : getMessage e = .ok m) : isRaisingKind e = false := by
  cases e <;> first
    | rfl
    | exact absurd h (by simp [getMessage])

/-- If any collected error is of a raising kind, the diagnostic loop raises
`NotImplementedError`, and every line it managed to write first came from a
non-raising error of the list. -/
theorem writeErrs_raises (c : Console) (errs : List CompilationError)
    (h : ∃ e ∈ errs, isRaisingKind e = true) :
    ∃ c', writeErrs c errs = (c', some .notImplemented) ∧
      ∀ line ∈ c'.error,
        line ∈ c.error ∨ ∃ e ∈ errs, isRaisingKind e = false ∧ getMessage e = .ok line := by
  induction errs generalizing c with
  | nil =>
    obtain ⟨e, he, _⟩ := h
    simp at he
  | cons e rest ih =>
    cases hge : getMessage e with
    | error k =>
      have hk := getMessage_error_kind e k hge
      subst hk
      refine ⟨c, ?_, fun line hl => Or.inl hl⟩
      unfold writeErrs
      simp only [hge]
    | ok m =>
      have hra := getMessage_ok_not_raising e m hge
      have hrest : ∃ e' ∈ rest, isRaisingKind e' = true := by
        obtain ⟨e', he', hr'⟩ := h
        rcases List.mem_cons.mp he' with rfl | htl
        · rw [hra] at hr'
          cases hr'
        · exact ⟨e', htl, hr'⟩
      obtain ⟨c', hc', hlines⟩ := ih { c with error := c.error ++ [m] } hrest
      refine ⟨c', ?_, ?_⟩
      · unfold writeErrs
        simp only [hge]
        exact hc'
      · intro line hl
        rcases hlines line hl with hmem | ⟨e', he', h1, h2⟩
        · rcases List.mem_append.mp hmem with h3 | h3
          · exact Or.inl h3
          · right
            refine ⟨e, by simp, hra, ?_⟩
            rw [← List.mem_singleton.mp h3] at hge
            exact hge
        · exact Or.inr ⟨e', by simp [he'], h1, h2⟩

/-- C10: `get_message` raises `NotImplementedError` for the five unimplemented
error kinds, so whenever naming or resolution fails with such an error,
`Interpreter.interpret` raises instead of printing — no diagnostic line of a
raising kind is ever written (lines written before the raise all come from
non-raising errors). -/
theorem c10_not_implemented :
    (∀ (name : String) (line : Nat),
      getMessage (.noMoreRegisters name line) = .error .notImplemented) ∧
    (∀ (name : String) (line : Nat),
      getMessage (.registerInUse name line) = .error .notImplemented) ∧
    (∀ (name : String) (line : Nat),
      getMessage (.labelInUse name line) = .error .notImplemented) ∧
    (∀ (name : String) (line : Nat),
      getMessage (.expectedRegister name line) = .error .notImplemented) ∧
    (∀ (name : String) (line : Nat),
      getMessage (.expectedLabel name line) = .error .notImplemented) ∧
    (∀ (fuel : Nat) (code : String) (input : List String)
        (pv : Validation (List PLine) CompilationError) (errs : List CompilationError),
      parse (pySplitlines code) = .ok pv →
      flatmapV (flatmapV pv do_name) resolve = .failure errs →
      (∃ e ∈ errs, isRaisingKind e = true) →
      ∃ c, interpret fuel code input = .exn .notImplemented c ∧
        ∀ line ∈ c.error, ∃ e ∈ errs, isRaisingKind e = false ∧ getMessage e = .ok line) := by
  refine ⟨fun _ _ => rfl, fun _ _ => rfl, fun _ _ => rfl, fun _ _ => rfl, fun _ _ => rfl, ?_⟩
  intro fuel code input pv errs hp hres hex
  obtain ⟨c', hw, hlines⟩ := writeErrs_raises ⟨input, [], []⟩ errs hex
  refine ⟨c', ?_, fun line hl => ?_⟩
  · unfold interpret
    rw [hp]
    simp only [hres]
    simp only [hw]
  · rcases hlines line hl with hmem | hfound
    · simp at hmem
    · exact hfound

/-- Witness for C10 on a program whose third line reuses the label `x`
(a `LabelInUseError`, one of the raising kinds). -/
theorem c10_not_implemented_witness :
    ∃ c, interpret 0 "x:\nhalt\nx:" [] = .exn .notImplemented c ∧
      ∀ line ∈ c.error, ∃ e ∈ [CompilationError.labelInUse "x" 3],
        isRaisingKind e = false ∧ getMessage e = .ok line :=
  c10_not_implemented.2.2.2.2.2 0 "x:\nhalt\nx:" []
    (.success [.label "x" 1, .cmd "halt" [] 2, .label "x" 3])
    [.labelInUse "x" 3] rfl rfl ⟨.labelInUse "x" 3, by decide, rfl⟩

end Worm


namespace Worm

/-! ## Dictionary lemmas -/

theorem dictLookup_insert (d : List (String × Nat)) (k : String) (v : Nat) (n : String) :
    dictLookup (dictInsert d k v) n = if n = k then some v else dictLookup d n := by
  induction d with
  | nil =>
    by_cases h : n = k
    · subst h
      simp [dictInsert, dictLookup]
    · simp [dictInsert, dictLookup, List.find?_cons, h, Ne.symm h]
  | cons p rest ih =>
    unfold dictInsert
    by_cases hpk : p.1 = k
    · simp only [if_pos hpk]
      by_cases hnk : n = k
      · subst hnk
        simp [dictLookup, List.find?_cons]
      · have hpn : ¬p.1 = n := by rw [hpk]; exact Ne.symm hnk
        simp [dictLookup, List.find?_cons, hnk, hpn, Ne.symm hnk]
    · simp only [if_neg hpk]
      by_cases hpn : p.1 = n
      · have hnk : ¬n = k := fun e => hpk (hpn.trans e)
        simp [dictLookup, List.find?_cons, hpn, hnk]
      · unfold dictLookup at ih ⊢
        simp only [List.find?_cons, hpn]
        simpa using ih

theorem dictContains_lookup (d : List (String × Nat)) (n : String) :
    dictContains d n = (dictLookup d n).isSome := by
  induction d with
  | nil => rfl
  | cons p rest ih =>
    unfold dictContains dictLookup at ih ⊢
    by_cases hpn : p.1 = n
    · simp [List.find?_cons, hpn]
    · simp only [List.any_cons, List.find?_cons, decide_eq_true_eq, hpn, if_neg hpn]
      simpa using ih

theorem dictLookup_none_of_not_contains {d : List (String × Nat)} {n : String}
    (h : dictContains d n = false) : dictLookup d n = none := by
  rw [dictContains_lookup] at h
  cases hl : dictLookup d n with
  | none => rfl
  | some v => rw [hl] at h; cases h

theorem dictInsert_mem {d : List (String × Nat)} {k : String} {v : Nat} {p : String × Nat}
    (h : p ∈ dictInsert d k v) : p ∈ d ∨ p = (k, v) := by
  induction d with
  | nil =>
    simp only [dictInsert, List.mem_singleton] at h
    exact Or.inr h
  | cons q rest ih =>
    unfold dictInsert at h
    split at h
    · rcases List.mem_cons.mp h with rfl | hm
      · exact Or.inr rfl
      · exact Or.inl (List.mem_cons.mpr (Or.inr hm))
    · rcases List.mem_cons.mp h with rfl | hm
      · exact Or.inl (List.mem_cons.mpr (Or.inl rfl))
      · rcases ih hm with h1 | h1
        · exact Or.inl (List.mem_cons.mpr (Or.inr h1))
        · exact Or.inr h1

theorem dictInsert_not_contains {d : List (String × Nat)} {k : String} (v : Nat)
    (h : dictContains d k = false) : dictInsert d k v = d ++ [(k, v)] := by
  induction d with
  | nil => rfl
  | cons p rest ih =>
    unfold dictContains at h ih
    simp only [List.any_cons, Bool.or_eq_false_iff, decide_eq_true_eq] at h
    unfold dictInsert
    rw [if_neg (by simpa using h.1), ih (by simpa using h.2)]
    rfl

theorem dictContains_append (d e : List (String × Nat)) (n : String) :
    dictContains (d ++ e) n = (dictContains d n || dictContains e n) := by
  unfold dictContains
  rw [List.any_append]

/-- Lookup after a batch insert of names all mapped to the same value:
inserted names resolve to that value, others are untouched. -/
theorem dictLookup_foldl_insert (pend : List String) (labs : List (String × Nat)) (v : Nat)
    (n : String) :
    dictLookup (pend.foldl (fun l nm => dictInsert l nm v) labs) n =
      if n ∈ pend then some v else dictLookup labs n := by
  induction pend generalizing labs with
  | nil => simp
  | cons nm rest ih =>
    simp only [List.foldl_cons]
    rw [ih]
    by_cases hmem : n ∈ rest
    · simp [hmem]
    · by_cases hnm : n = nm
      · subst hnm
        simp [hmem, dictLookup_insert]
      · simp [hmem, hnm, dictLookup_insert]

end Worm

namespace Worm

/-! ## Namer loop-state lemmas -/

theorem nameStep_errors (s : NState) (l : PLine) :
    ∃ es, (nameStep s l).errors = s.errors ++ es := by
  cases l with
  | alloc names ln =>
    unfold nameStep
    dsimp only
    split
    · exact ⟨[], by simp⟩
    · exact ⟨_, rfl⟩
  | label nm ln =>
    unfold nameStep
    dsimp only
    split
    · exact ⟨_, rfl⟩
    · exact ⟨[], by simp⟩
  | cmd c args ln => exact ⟨[], by simp [nameStep]⟩

theorem nameFold_errors (code : List PLine) (s : NState) :
    ∃ es, (code.foldl nameStep s).errors = s.errors ++ es := by
  induction code generalizing s with
  | nil => exact ⟨[], by simp⟩
  | cons l rest ih =>
    rw [List.foldl_cons]
    obtain ⟨es1, h1⟩ := nameStep_errors s l
    obtain ⟨es2, h2⟩ := ih (nameStep s l)
    exact ⟨es1 ++ es2, by rw [h2, h1, List.append_assoc]⟩

theorem nameStep_errors_nil {code : List PLine} {s : NState} {l : PLine}
    (hE : ((l :: code).foldl nameStep s).errors = []) :
    (nameStep s l).errors = [] ∧ (code.foldl nameStep (nameStep s l)).errors = [] := by
  rw [List.foldl_cons] at hE
  obtain ⟨es, h⟩ := nameFold_errors code (nameStep s l)
  rw [hE] at h
  exact ⟨(List.append_eq_nil.mp h.symm).1, hE⟩

theorem containsCmd_cons (l : PLine) (rest : List PLine) :
    containsCmd (l :: rest) = (isCmdL l || containsCmd rest) := by
  simp [containsCmd]

theorem countCmds_cons (l : PLine) (rest : List PLine) :
    countCmds (l :: rest) = (if isCmdL l then 1 else 0) + countCmds rest := by
  simp [countCmds, List.countP_cons]
  split <;> omega

theorem nameStep_alloc_fields (s : NState) (names : List String) (ln : Nat) :
    (nameStep s (.alloc names ln)).labels = s.labels ∧
    (nameStep s (.alloc names ln)).pending = s.pending ∧
    (nameStep s (.alloc names ln)).lineNum = s.lineNum := by
  unfold nameStep
  dsimp only
  split
  · exact ⟨rfl, rfl, rfl⟩
  · exact ⟨rfl, rfl, rfl⟩

theorem nameStep_label_clean {s : NState} {nm : String} {ln : Nat}
    (h : (nameStep s (.label nm ln)).errors = []) (hs : s.errors = []) :
    (dictContains s.registers nm || dictContains s.labels nm) = false ∧
    nameStep s (.label nm ln) = { s with pending := s.pending ++ [nm] } := by
  unfold nameStep at h ⊢
  dsimp only at h ⊢
  by_cases hc : (dictContains s.registers nm || dictContains s.labels nm) = true
  · rw [if_pos hc] at h
    simp at h
  · have hc' : (dictContains s.registers nm || dictContains s.labels nm) = false := by
      simpa using hc
    rw [if_neg (by simp [hc'])] at h ⊢
    exact ⟨hc', rfl⟩

end Worm

namespace Worm

/-- Master invariant of the namer's fold for the labels map: on an error-free
run from a state whose pending labels are unmapped, (a) each pending label
ends up mapped to the current command count exactly when a command follows,
(b) already-mapped labels are never remapped, and (c) each label line maps to
the command count at its position exactly when a command follows it. -/
theorem nameFold_labels (code : List PLine) :
    ∀ s : NState,
      (∀ n ∈ s.pending, dictLookup s.labels n = none) →
      (code.foldl nameStep s).errors = [] →
      (∀ n ∈ s.pending,
        dictLookup (code.foldl nameStep s).labels n =
          if containsCmd code then some s.lineNum else none) ∧
      (∀ n, dictLookup s.labels n ≠ none →
        dictLookup (code.foldl nameStep s).labels n = dictLookup s.labels n) ∧
      (∀ i nm ln, code.get? i = some (.label nm ln) →
        dictLookup (code.foldl nameStep s).labels nm =
          if containsCmd (code.drop (i + 1)) then some (s.lineNum + countCmds (code.take i))
          else none) := by
  induction code with
  | nil =>
    intro s hPL hE
    refine ⟨?_, fun n _ => rfl, ?_⟩
    · intro n hn
      simpa [containsCmd] using hPL n hn
    · intro i nm ln hg
      simp at hg
  | cons l rest ih =>
    intro s hPL hE
    obtain ⟨hE1, hErest⟩ := nameStep_errors_nil hE
    have hs0 : s.errors = [] := by
      obtain ⟨es, h1⟩ := nameStep_errors s l
      rw [hE1] at h1
      exact (List.append_eq_nil.mp h1.symm).1
    cases l with
    | alloc names ln =>
      obtain ⟨hl, hp, hn⟩ := nameStep_alloc_fields s names ln
      obtain ⟨ih1, ih2, ih3⟩ := ih (nameStep s (.alloc names ln))
        (by rw [hp, hl]; exact hPL) hErest
      rw [List.foldl_cons]
      refine ⟨?_, ?_, ?_⟩
      · intro n hmem
        have h1 := ih1 n (by rw [hp]; exact hmem)
        rw [hn] at h1
        rw [h1, containsCmd_cons]
        simp [isCmdL]
      · intro n hln
        have h2 := ih2 n (by rw [hl]; exact hln)
        rw [hl] at h2
        exact h2
      · intro i nm ln' hg
        cases i with
        | zero => simp at hg
        | succ i =>
          have h3 := ih3 i nm ln' (by simpa using hg)
          rw [hn] at h3
          rw [h3]
          simp [countCmds_cons, isCmdL]
    | label nm ln =>
      obtain ⟨hcheck, hstep⟩ := nameStep_label_clean hE1 hs0
      have hl1 : (nameStep s (.label nm ln)).labels = s.labels := by rw [hstep]
      have hp1 : (nameStep s (.label nm ln)).pending = s.pending ++ [nm] := by rw [hstep]
      have hn1 : (nameStep s (.label nm ln)).lineNum = s.lineNum := by rw [hstep]
      have hnotlab : dictLookup s.labels nm = none := by
        have : dictContains s.labels nm = false :=
          (Bool.or_eq_false_iff.mp hcheck).2
        exact dictLookup_none_of_not_contains this
      have hPL1 : ∀ n ∈ (nameStep s (.label nm ln)).pending,
          dictLookup (nameStep s (.label nm ln)).labels n = none := by
        rw [hp1, hl1]
        intro n hnmem
        rcases List.mem_append.mp hnmem with h1 | h1
        · exact hPL n h1
        · rw [List.mem_singleton.mp h1]
          exact hnotlab
      obtain ⟨ih1, ih2, ih3⟩ := ih (nameStep s (.label nm ln)) hPL1 hErest
      rw [List.foldl_cons]
      refine ⟨?_, ?_, ?_⟩
      · intro n hmem
        have h1 := ih1 n (by rw [hp1]; exact List.mem_append.mpr (Or.inl hmem))
        rw [hn1] at h1
        rw [h1, containsCmd_cons]
        simp [isCmdL]
      · intro n hln'
        have h2 := ih2 n (by rw [hl1]; exact hln')
        rw [hl1] at h2
        exact h2
      · intro i nm' ln' hg
        cases i with
        | zero =>
          simp only [List.get?_cons_zero, Option.some.injEq] at hg
          cases hg
          have h1 := ih1 nm (by rw [hp1]; exact List.mem_append.mpr (Or.inr (by simp)))
          rw [hn1] at h1
          simpa using h1
        | succ i =>
          have h3 := ih3 i nm' ln' (by simpa using hg)
          rw [hn1] at h3
          rw [h3]
          simp [countCmds_cons, isCmdL]
    | cmd c args ln =>
      have hstep : nameStep s (.cmd c args ln) =
          { s with
            labels := s.pending.foldl (fun labs x => dictInsert labs x s.lineNum) s.labels,
            namedLines := s.namedLines ++ [⟨c, args, ln⟩],
            pending := [],
            lineNum := s.lineNum + 1 } := rfl
      have hPL1 : ∀ n ∈ (nameStep s (.cmd c args ln)).pending,
          dictLookup (nameStep s (.cmd c args ln)).labels n = none := by
        rw [hstep]
        intro n hnmem
        simp at hnmem
      obtain ⟨ih1, ih2, ih3⟩ := ih (nameStep s (.cmd c args ln)) hPL1 hErest
      have hn1 : (nameStep s (.cmd c args ln)).lineNum = s.lineNum + 1 := by rw [hstep]
      have hlook : ∀ n, dictLookup (nameStep s (.cmd c args ln)).labels n =
          if n ∈ s.pending then some s.lineNum else dictLookup s.labels n := by
        intro n
        rw [hstep]
        exact dictLookup_foldl_insert s.pending s.labels s.lineNum n
      rw [List.foldl_cons]
      refine ⟨?_, ?_, ?_⟩
      · intro n hmem
        have hsome : dictLookup (nameStep s (.cmd c args ln)).labels n = some s.lineNum := by
          rw [hlook n, if_pos hmem]
        have h2 := ih2 n (by rw [hsome]; exact Option.some_ne_none _)
        rw [hsome] at h2
        rw [h2, containsCmd_cons]
        simp [isCmdL]
      · intro n hln'
        have hnp : n ∉ s.pending := by
          intro hmem
          exact hln' (hPL n hmem)
        have heq : dictLookup (nameStep s (.cmd c args ln)).labels n = dictLookup s.labels n := by
          rw [hlook n, if_neg hnp]
        have h2 := ih2 n (by rw [heq]; exact hln')
        rw [heq] at h2
        exact h2
      · intro i nm' ln' hg
        cases i with
        | zero => simp at hg
        | succ i =>
          have h3 := ih3 i nm' ln' (by simpa using hg)
          rw [hn1] at h3
          rw [h3]
          simp only [List.drop_succ_cons, List.take_succ_cons, countCmds_cons, isCmdL]
          norm_num
          split
          · simp only [Option.some.injEq]
            omega
          · rfl

end Worm

namespace Worm

/-- C1 (amended): in every program the namer accepts, a label line whose
suffix contains a command is mapped to the index of the first command
following it (the count of commands before the label); a label followed only
by non-command lines or by the end of the program is not mapped at all — the
loop's `label_list` is discarded, so such a label is absent from the labels
map and a reference to it cannot resolve. -/
theorem c1_label_indices (code : List PLine) (np : NamedProgram)
    (h : do_name code = .success np) (i : Nat) (nm : String) (ln : Nat)
    (hg : code.get? i = some (.label nm ln)) :
    dictLookup np.labels nm =
      if containsCmd (code.drop (i + 1)) then some (countCmds (code.take i)) else none := by
  unfold do_name at h
  dsimp only at h
  split at h
  · rename_i he
    have herr : (code.foldl nameStep initNState).errors = [] := by
      simpa using he
    obtain ⟨h1, h2, h3⟩ := nameFold_labels code initNState (by intro n hn; simp [initNState] at hn)
      herr
    have h4 := h3 i nm ln hg
    have hnp : np.labels = (code.foldl nameStep initNState).labels := by
      cases h
      rfl
    rw [hnp, h4]
    simp [initNState]
  · cases h

/-- C1, counterexample to the claim as stated: the namer accepts a program
consisting of a single trailing label, but maps it to nothing — not to the
index one past the last command (which would be `some 0`). -/
theorem c1_counterexample :
    do_name [PLine.label "l" 1] = .success ⟨[], [], []⟩ ∧
    dictLookup (NamedProgram.mk [] [] []).labels "l" = none :=
  ⟨rfl, rfl⟩

/-- Witness for C1 on `l: ; halt`: the label maps to command index 0. -/
theorem c1_label_indices_witness :
    dictLookup (NamedProgram.mk [⟨"halt", [], 2⟩] [] [("a", 0)]).labels "a" =
      if containsCmd ([PLine.label "a" 1, PLine.cmd "halt" [] 2].drop 1) then
        some (countCmds ([PLine.label "a" 1, PLine.cmd "halt" [] 2].take 0))
      else none :=
  c1_label_indices [PLine.label "a" 1, PLine.cmd "halt" [] 2]
    ⟨[⟨"halt", [], 2⟩], [], [("a", 0)]⟩ rfl 0 "a" 1 rfl

end Worm

namespace Worm

/-! ## C2: namer map invariants -/

theorem allocLoop_registers_lt (labs : List (String × Nat)) (ln : Nat) :
    ∀ (names : List String) (errs0 : List CompilationError) (regs : List (String × Nat)),
      (∀ p ∈ regs, p.2 < 32) →
      ∀ p ∈ (names.foldl (allocStep labs ln) (errs0, regs)).2, p.2 < 32 := by
  intro names
  induction names with
  | nil => intro errs0 regs h p hp; exact h p hp
  | cons nm rest ih =>
    intro errs0 regs h p hp
    rw [List.foldl_cons] at hp
    unfold allocStep at hp
    split at hp
    · exact ih _ _ h p hp
    · split at hp
      · exact ih _ _ h p hp
      · rename_i hc hlen
        refine ih _ _ ?_ p hp
        intro q hq
        rcases dictInsert_mem hq with h1 | h1
        · exact h q h1
        · rw [h1]
          simp only [NUM_REGISTERS] at hlen
          dsimp only at hlen ⊢
          omega

theorem nameStep_alloc_registers (s : NState) (names : List String) (ln : Nat) :
    (nameStep s (.alloc names ln)).registers =
      (allocLoop s.registers s.labels names ln).2 := by
  unfold nameStep
  dsimp only
  split
  · rfl
  · rfl

theorem nameStep_label_registers (s : NState) (nm : String) (ln : Nat) :
    (nameStep s (.label nm ln)).registers = s.registers := by
  unfold nameStep
  dsimp only
  split
  · rfl
  · rfl

theorem nameFold_registers (code : List PLine) :
    ∀ s : NState, (∀ p ∈ s.registers, p.2 < 32) →
      ∀ p ∈ (code.foldl nameStep s).registers, p.2 < 32 := by
  induction code with
  | nil => intro s h p hp; exact h p hp
  | cons l rest ih =>
    intro s h p hp
    rw [List.foldl_cons] at hp
    refine ih (nameStep s l) ?_ p hp
    cases l with
    | alloc names ln =>
      rw [nameStep_alloc_registers]
      exact allocLoop_registers_lt s.labels ln names [] s.registers h
    | label nm ln =>
      rw [nameStep_label_registers]
      exact h
    | cmd c args ln => exact h

theorem foldl_insert_mem {pend : List String} {labs : List (String × Nat)} {v : Nat}
    {p : String × Nat}
    (h : p ∈ pend.foldl (fun l nm => dictInsert l nm v) labs) : p ∈ labs ∨ p.2 = v := by
  induction pend generalizing labs with
  | nil => exact Or.inl h
  | cons nm rest ih =>
    rw [List.foldl_cons] at h
    rcases ih h with h1 | h1
    · rcases dictInsert_mem h1 with h2 | h2
      · exact Or.inl h2
      · right
        rw [h2]
    · exact Or.inr h1

theorem nameStep_label_bookkeeping (s : NState) (nm : String) (ln : Nat) :
    (nameStep s (.label nm ln)).labels = s.labels ∧
    (nameStep s (.label nm ln)).lineNum = s.lineNum ∧
    (nameStep s (.label nm ln)).namedLines = s.namedLines := by
  unfold nameStep
  dsimp only
  split
  · exact ⟨rfl, rfl, rfl⟩
  · exact ⟨rfl, rfl, rfl⟩

theorem nameStep_alloc_bookkeeping (s : NState) (names : List String) (ln : Nat) :
    (nameStep s (.alloc names ln)).namedLines = s.namedLines := by
  unfold nameStep
  dsimp only
  split
  · rfl
  · rfl

theorem nameFold_labels_le (code : List PLine) :
    ∀ s : NState,
      (∀ p ∈ s.labels, p.2 ≤ s.lineNum) → s.namedLines.length = s.lineNum →
      (∀ p ∈ (code.foldl nameStep s).labels, p.2 ≤ (code.foldl nameStep s).lineNum) ∧
      (code.foldl nameStep s).namedLines.length = (code.foldl nameStep s).lineNum := by
  induction code with
  | nil => intro s h1 h2; exact ⟨h1, h2⟩
  | cons l rest ih =>
    intro s h1 h2
    rw [List.foldl_cons]
    cases l with
    | alloc names ln =>
      obtain ⟨ha, hb, hc⟩ := nameStep_alloc_fields s names ln
      exact ih (nameStep s (.alloc names ln))
        (by rw [ha, hc]; exact h1)
        (by rw [nameStep_alloc_bookkeeping, hc]; exact h2)
    | label nm ln =>
      obtain ⟨ha, hb, hc⟩ := nameStep_label_bookkeeping s nm ln
      exact ih (nameStep s (.label nm ln))
        (by rw [ha, hb]; exact h1)
        (by rw [hc, hb]; exact h2)
    | cmd c args ln =>
      refine ih (nameStep s (.cmd c args ln)) ?_ ?_
      · intro p hp
        have hmem : p ∈ s.pending.foldl (fun l nm => dictInsert l nm s.lineNum) s.labels := hp
        have hln : (nameStep s (.cmd c args ln)).lineNum = s.lineNum + 1 := rfl
        rw [hln]
        rcases foldl_insert_mem hmem with hI | hI
        · exact Nat.le_succ_of_le (h1 p hI)
        · omega
      · show (s.namedLines ++ [NamedCommand.mk c args ln]).length = s.lineNum + 1
        simp [h2]

end Worm

namespace Worm

/-! ## C2: resolver lemmas -/

theorem sequenceV_success_get {α ε : Type} {vals : List (Validation α ε)} {xs : List α}
    (h : sequenceV vals = .success xs) :
    xs.length = vals.length ∧
    ∀ k v, vals.get? k = some v → ∃ x, v = .success x ∧ xs.get? k = some x := by
  unfold sequenceV at h
  split at h
  · rename_i hc
    cases h
    have hall : ∀ v ∈ vals, ∃ x, v = Validation.success x := by
      intro v hv
      cases v with
      | success x => exact ⟨x, rfl⟩
      | failure es =>
        exfalso
        have : Validation.failure (α := α) es ∈ failuresOf vals := by
          unfold failuresOf
          exact List.mem_filter.mpr ⟨hv, rfl⟩
        rw [List.isEmpty_iff.mp hc] at this
        simp at this
    clear hc
    induction vals with
    | nil => exact ⟨rfl, by intro k v hv; simp at hv⟩
    | cons v rest ih =>
      obtain ⟨x, rfl⟩ := hall v (by simp)
      have hrest := ih (fun w hw => hall w (by simp [hw]))
      have hsucc : successesOf (Validation.success x :: rest) = x :: successesOf rest := by
        unfold successesOf
        simp
      refine ⟨by simp [hsucc, hrest.1], ?_⟩
      intro k w hw
      cases k with
      | zero =>
        simp only [List.get?_cons_zero, Option.some.injEq] at hw
        exact ⟨x, hw.symm, by simp [hsucc]⟩
      | succ k =>
        obtain ⟨y, hy1, hy2⟩ := hrest.2 k w (by simpa using hw)
        exact ⟨y, hy1, by simpa [hsucc] using hy2⟩
  · cases h

theorem visitArg_failure_ne_nil {np : NamedProgram} {a : String} {r : Value} {line : Nat}
    {es : List CompilationError} (h : visitArg np a r line = .failure es) : es ≠ [] := by
  unfold visitArg at h
  split at h
  · cases h
  · split at h
    · split at h
      · cases h
      · cases h
        simp
    · split at h
      · split at h
        · cases h
        · cases h
          simp
      · cases h
        simp

theorem resolveArgs_errs_prefix (np : NamedProgram) (line : Nat) :
    ∀ (pairs : List (String × Value)) (e0 : List CompilationError) (v0 : List Int),
      ∃ suf, (pairs.foldl (resolveArgStep np line) (e0, v0)).1 = e0 ++ suf := by
  intro pairs
  induction pairs with
  | nil => intro e0 v0; exact ⟨[], by simp⟩
  | cons p rest ih =>
    intro e0 v0
    rw [List.foldl_cons]
    cases hva : visitArg np p.1 p.2 line with
    | failure es =>
      have hstep : resolveArgStep np line (e0, v0) p = (e0 ++ es, v0) := by
        unfold resolveArgStep
        rw [hva]
      rw [hstep]
      obtain ⟨suf, hsuf⟩ := ih (e0 ++ es) v0
      exact ⟨es ++ suf, by rw [hsuf, List.append_assoc]⟩
    | success v =>
      have hstep : resolveArgStep np line (e0, v0) p = (e0, v0 ++ [v]) := by
        unfold resolveArgStep
        rw [hva]
      rw [hstep]
      exact ih e0 (v0 ++ [v])

theorem resolveArgs_vals_prefix (np : NamedProgram) (line : Nat) :
    ∀ (pairs : List (String × Value)) (e0 : List CompilationError) (v0 : List Int),
      ∃ suf, (pairs.foldl (resolveArgStep np line) (e0, v0)).2 = v0 ++ suf := by
  intro pairs
  induction pairs with
  | nil => intro e0 v0; exact ⟨[], by simp⟩
  | cons p rest ih =>
    intro e0 v0
    rw [List.foldl_cons]
    cases hva : visitArg np p.1 p.2 line with
    | failure es =>
      have hstep : resolveArgStep np line (e0, v0) p = (e0 ++ es, v0) := by
        unfold resolveArgStep
        rw [hva]
      rw [hstep]
      exact ih (e0 ++ es) v0
    | success v =>
      have hstep : resolveArgStep np line (e0, v0) p = (e0, v0 ++ [v]) := by
        unfold resolveArgStep
        rw [hva]
      rw [hstep]
      obtain ⟨suf, hsuf⟩ := ih e0 (v0 ++ [v])
      exact ⟨v :: suf, by rw [hsuf, List.append_assoc]; rfl⟩

theorem resolveArgs_success_get (np : NamedProgram) (line : Nat) :
    ∀ (pairs : List (String × Value)) (e0 : List CompilationError) (v0 : List Int),
      (pairs.foldl (resolveArgStep np line) (e0, v0)).1 = [] →
      ∀ i p, pairs.get? i = some p →
        ∃ v, visitArg np p.1 p.2 line = .success v ∧
          (pairs.foldl (resolveArgStep np line) (e0, v0)).2.get? (v0.length + i) = some v := by
  intro pairs
  induction pairs with
  | nil =>
    intro e0 v0 hE i p hp
    simp at hp
  | cons q rest ih =>
    intro e0 v0 hE i p hp
    rw [List.foldl_cons] at hE ⊢
    cases hva : visitArg np q.1 q.2 line with
    | failure es =>
      exfalso
      have hstep : resolveArgStep np line (e0, v0) q = (e0 ++ es, v0) := by
        unfold resolveArgStep
        rw [hva]
      rw [hstep] at hE
      obtain ⟨suf, hsuf⟩ := resolveArgs_errs_prefix np line rest (e0 ++ es) v0
      rw [hE] at hsuf
      have : es = [] := by
        have h0 := congrArg List.length hsuf
        simp at h0
        exact List.eq_nil_of_length_eq_zero (by omega)
      exact visitArg_failure_ne_nil hva this
    | success v =>
      have hstep : resolveArgStep np line (e0, v0) q = (e0, v0 ++ [v]) := by
        unfold resolveArgStep
        rw [hva]
      rw [hstep] at hE ⊢
      cases i with
      | zero =>
        simp only [List.get?_cons_zero, Option.some.injEq] at hp
        subst hp
        obtain ⟨suf, hsuf⟩ := resolveArgs_vals_prefix np line rest e0 (v0 ++ [v])
        refine ⟨v, hva, ?_⟩
        rw [hsuf, List.append_assoc]
        rw [List.get?_append_right (by omega)]
        simp
      | succ i =>
        obtain ⟨v', hv1, hv2⟩ := ih e0 (v0 ++ [v]) hE i p (by simpa using hp)
        refine ⟨v', hv1, ?_⟩
        have harith : v0.length + (i + 1) = (v0 ++ [v]).length + i := by
          simp
          omega
        rw [harith]
        exact hv2

end Worm

namespace Worm

theorem dictLookup_mem {d : List (String × Nat)} {k : String} {v : Nat}
    (h : dictLookup d k = some v) : (k, v) ∈ d := by
  unfold dictLookup at h
  obtain ⟨p, hfind, hp2⟩ := Option.map_eq_some'.mp h
  have hmem := List.mem_of_find?_eq_some hfind
  have hk : p.1 = k := by simpa using List.find?_some hfind
  have : p = (k, v) := by
    cases p
    simp_all
  rw [← this]
  exact hmem

/-- Bounds on a successfully resolved non-literal argument, given bounds on
the two maps: register names resolve below 32, label names resolve within the
given bound. -/
theorem visitArg_success_bounds {np : NamedProgram} {a : String} {r : Value} {line : Nat}
    {v : Int} {L : Nat}
    (hreg : ∀ p ∈ np.registers, p.2 < 32) (hlab : ∀ p ∈ np.labels, p.2 ≤ L)
    (h : visitArg np a r line = .success v) (hlit : isIntLiteral a = false) :
    (r = .register → v < 32) ∧ (r = .label → v ≤ (L : Int)) := by
  unfold visitArg at h
  rw [hlit] at h
  simp only [Bool.false_eq_true, if_false] at h
  cases hr1 : dictLookup np.registers a with
  | some w =>
    simp only [hr1] at h
    cases r with
    | register =>
      simp only at h
      cases h
      have := hreg (a, w) (dictLookup_mem hr1)
      refine ⟨fun _ => ?_, fun hc => by cases hc⟩
      exact_mod_cast this
    | label => simp only at h; cases h
  | none =>
    simp only [hr1] at h
    cases hr2 : dictLookup np.labels a with
    | some w =>
      simp only [hr2] at h
      cases r with
      | register => simp only at h; cases h
      | label =>
        simp only at h
        cases h
        have := hlab (a, w) (dictLookup_mem hr2)
        refine ⟨fun hc => ?_, fun _ => ?_⟩
        · cases hc
        · exact_mod_cast this
    | none =>
      simp only [hr2] at h
      cases h

/-- Inversion of a successful `resolve.visit`. -/
theorem resolveVisit_success {np : NamedProgram} {nc : NamedCommand} {rc : ResolvedCommand}
    (h : resolveVisit np nc = .success rc) :
    ∃ roles, COMMANDS nc.cmd = some roles ∧ nc.args.length = roles.length ∧
      (resolveArgs np nc.line (nc.args.zip roles)).1 = [] ∧
      rc = ⟨nc.cmd, (resolveArgs np nc.line (nc.args.zip roles)).2⟩ := by
  unfold resolveVisit at h
  cases hcm : COMMANDS nc.cmd with
  | none =>
    simp only [hcm] at h
    cases h
  | some roles =>
    simp only [hcm] at h
    split_ifs at h with ha1 ha2 hemp <;> cases h
    refine ⟨roles, rfl, ?_, ?_, rfl⟩
    · omega
    · simpa using hemp

/-- C2 (amended): in a named program accepted by the namer on which the
resolver succeeds, every argument that was resolved from a *name* (not a bare
integer literal) is `< 32` at `Register`-role positions and `≤ |program|` at
`Label`-role positions.  (Bare integer literals are passed through unchecked
and may violate these bounds.) -/
theorem c2_name_resolved_bounds (code : List PLine) (np : NamedProgram)
    (cmds : List ResolvedCommand)
    (h1 : do_name code = .success np) (h2 : resolve np = .success cmds) :
    cmds.length = np.lines.length ∧
    ∀ k nc, np.lines.get? k = some nc →
      ∀ roles, COMMANDS nc.cmd = some roles →
      ∀ i a r, nc.args.get? i = some a → roles.get? i = some r →
      isIntLiteral a = false →
      ∃ rc v, cmds.get? k = some rc ∧ rc.args.get? i = some v ∧
        (r = .register → v < 32) ∧ (r = .label → v ≤ (cmds.length : Int)) := by
  have hinv : (∀ p ∈ np.registers, p.2 < 32) ∧ (∀ p ∈ np.labels, p.2 ≤ np.lines.length) := by
    unfold do_name at h1
    dsimp only at h1
    split at h1
    · cases h1
      constructor
      · exact nameFold_registers code initNState (by intro p hp; simp [initNState] at hp)
      · obtain ⟨hv, hl⟩ := nameFold_labels_le code initNState
          (by intro p hp; simp [initNState] at hp) rfl
        intro p hp
        exact (hv p hp).trans (le_of_eq hl.symm)
    · cases h1
  unfold resolve at h2
  obtain ⟨hlen, hget⟩ := sequenceV_success_get h2
  rw [List.length_map] at hlen
  refine ⟨hlen, ?_⟩
  intro k nc hk roles hroles i a r ha hr hlit
  have hmap : (np.lines.map (resolveVisit np)).get? k = some (resolveVisit np nc) := by
    rw [List.get?_map, hk]
    rfl
  obtain ⟨rc, hrc1, hrc2⟩ := hget k _ hmap
  obtain ⟨roles', hcm', harity, herrs, hrceq⟩ := resolveVisit_success hrc1
  rw [hroles] at hcm'
  cases hcm'
  have hpair : (nc.args.zip roles).get? i = some (a, r) := by
    rw [List.get?_eq_getElem?]
    rw [List.getElem?_zip_eq_some]
    rw [List.get?_eq_getElem?] at ha hr
    exact ⟨ha, hr⟩
  obtain ⟨v, hva, hvget⟩ :=
    resolveArgs_success_get np nc.line (nc.args.zip roles) [] [] herrs i (a, r) hpair
  have hbounds := visitArg_success_bounds hinv.1 hinv.2 hva hlit
  refine ⟨rc, v, hrc2, ?_, hbounds.1, fun hrl => ?_⟩
  · rw [hrceq]
    simpa [resolveArgs] using hvget
  · have := hbounds.2 hrl
    rw [hlen]
    exact this

end Worm

namespace Worm

/-- C2 counterexample: a bare integer literal in a Register-role position is
passed through unchecked: `add 100, 0, 0` names and resolves successfully even
though 100 is not a valid register index (there are only 32 registers). -/
theorem c2_counterexample :
    do_name [PLine.cmd "add" ["100", "0", "0"] 1] =
      .success ⟨[⟨"add", ["100", "0", "0"], 1⟩], [], []⟩ ∧
    resolve ⟨[⟨"add", ["100", "0", "0"], 1⟩], [], []⟩ =
      .success [⟨"add", [100, 0, 0]⟩] ∧
    ¬((100 : Int) < 32) := by
  refine ⟨rfl, rfl, by norm_num⟩

theorem c2_name_resolved_bounds_witness :
    ∃ rc v, ([ResolvedCommand.mk "li" [0, 0]]).get? 0 = some rc ∧
      rc.args.get? 1 = some v ∧
      (Value.label = Value.register → v < 32) ∧
      (Value.label = Value.label →
        v ≤ (([ResolvedCommand.mk "li" [0, 0]] : List ResolvedCommand).length : Int)) :=
  (c2_name_resolved_bounds
      [PLine.alloc ["x"] 1, PLine.label "L" 2, PLine.cmd "li" ["x", "L"] 3]
      ⟨[⟨"li", ["x", "L"], 3⟩], [("x", 0)], [("L", 0)]⟩
      [⟨"li", [0, 0]⟩] rfl rfl).2
    0 ⟨"li", ["x", "L"], 3⟩ rfl [Value.register, Value.label] rfl
    1 "L" Value.label rfl rfl rfl

end Worm

namespace Worm

/-! ## C7: the allocation loop of the namer -/

theorem allocStep_errs (labs : List (String × Nat)) (ln : Nat)
    (acc : List CompilationError × List (String × Nat)) (nm : String) :
    ∃ es, (allocStep labs ln acc nm).1 = acc.1 ++ es := by
  unfold allocStep
  split_ifs
  · exact ⟨[.registerInUse nm ln], rfl⟩
  · exact ⟨[.noMoreRegisters nm ln], rfl⟩
  · exact ⟨[], by simp⟩

theorem allocFold_errs (labs : List (String × Nat)) (ln : Nat) :
    ∀ (names : List String) (acc : List CompilationError × List (String × Nat)),
      ∃ es, (names.foldl (allocStep labs ln) acc).1 = acc.1 ++ es := by
  intro names
  induction names with
  | nil => exact fun acc => ⟨[], by simp⟩
  | cons nm rest ih =>
    intro acc
    rw [List.foldl_cons]
    obtain ⟨es1, h1⟩ := allocStep_errs labs ln acc nm
    obtain ⟨es2, h2⟩ := ih (allocStep labs ln acc nm)
    exact ⟨es1 ++ es2, by rw [h2, h1, List.append_assoc]⟩

theorem allocFold_errs_mem {labs : List (String × Nat)} {ln : Nat}
    {names : List String} {acc : List CompilationError × List (String × Nat)}
    {e : CompilationError} (h : e ∈ acc.1) :
    e ∈ (names.foldl (allocStep labs ln) acc).1 := by
  obtain ⟨es, hes⟩ := allocFold_errs labs ln names acc
  rw [hes]
  exact List.mem_append_left _ h

theorem allocStep_lookup {labs : List (String × Nat)} {ln : Nat}
    {acc : List CompilationError × List (String × Nat)} {nm n : String} {v : Nat}
    (h : dictLookup acc.2 n = some v) :
    dictLookup (allocStep labs ln acc nm).2 n = some v := by
  unfold allocStep
  split_ifs with h1 h2
  · exact h
  · exact h
  · dsimp only
    rw [dictLookup_insert]
    split_ifs with hn
    · exfalso
      rw [hn] at h
      simp only [Bool.or_eq_true, not_or, dictContains_lookup, h] at h1
      exact absurd rfl h1.1
    · exact h

theorem allocFold_lookup {labs : List (String × Nat)} {ln : Nat} :
    ∀ {names : List String} {acc : List CompilationError × List (String × Nat)}
      {n : String} {v : Nat},
      dictLookup acc.2 n = some v →
      dictLookup (names.foldl (allocStep labs ln) acc).2 n = some v := by
  intro names
  induction names with
  | nil => intro acc n v h; exact h
  | cons nm rest ih =>
    intro acc n v h
    rw [List.foldl_cons]
    exact ih (allocStep_lookup h)

theorem allocClean_cons {regs labs : List (String × Nat)} {nm : String} {rest : List String} :
    allocClean regs labs (nm :: rest) ↔
      dictContains regs nm = false ∧ dictContains labs nm = false ∧
      regs.length < NUM_REGISTERS ∧
      allocClean (regs ++ [(nm, regs.length)]) labs rest := by
  constructor
  · intro h
    obtain ⟨h1, h2, _, h4⟩ := h 0 nm rfl
    refine ⟨h1, h2, by omega, ?_⟩
    intro j nm' hj
    obtain ⟨g1, g2, g3, g4⟩ := h (j + 1) nm' (by simpa using hj)
    rw [List.take_succ_cons] at g3
    simp only [List.mem_cons, not_or] at g3
    refine ⟨?_, g2, g3.2, ?_⟩
    · rw [dictContains_append]
      simp only [Bool.or_eq_false_iff]
      refine ⟨g1, ?_⟩
      unfold dictContains
      simp [Ne.symm g3.1]
    · simp only [List.length_append, List.length_singleton]
      omega
  · rintro ⟨h1, h2, h3, h4⟩
    intro i nm' hi
    cases i with
    | zero =>
      have he : nm = nm' := by simpa using hi
      subst he
      exact ⟨h1, h2, by simp, by omega⟩
    | succ j =>
      obtain ⟨g1, g2, g3, g4⟩ := h4 j nm' (by simpa using hi)
      rw [dictContains_append] at g1
      simp only [Bool.or_eq_false_iff] at g1
      have hne : nm' ≠ nm := by
        intro e
        subst e
        have := g1.2
        unfold dictContains at this
        simp at this
      refine ⟨g1.1, g2, ?_, ?_⟩
      · rw [List.take_succ_cons]
        simp only [List.mem_cons, not_or]
        exact ⟨hne, g3⟩
      · simp only [List.length_append, List.length_singleton] at g4
        omega

theorem allocFold_clean {labs : List (String × Nat)} {ln : Nat} :
    ∀ (names : List String) (regs : List (String × Nat)) (errs0 : List CompilationError),
      allocClean regs labs names →
      names.foldl (allocStep labs ln) (errs0, regs) =
        (errs0, regs ++ allocSlots regs.length names) := by
  intro names
  induction names with
  | nil => intro regs errs0 _; simp [allocSlots]
  | cons nm rest ih =>
    intro regs errs0 hc
    rw [allocClean_cons] at hc
    obtain ⟨h1, h2, h3, h4⟩ := hc
    have hc1 : ¬((dictContains regs nm || dictContains labs nm) = true) := by
      simp [h1, h2]
    have hc2 : ¬(NUM_REGISTERS ≤ regs.length) := not_le.mpr h3
    have hstep : allocStep labs ln (errs0, regs) nm = (errs0, regs ++ [(nm, regs.length)]) := by
      unfold allocStep
      dsimp only
      rw [if_neg hc1, if_neg hc2, dictInsert_not_contains _ h1]
    rw [List.foldl_cons, hstep, ih _ errs0 h4]
    simp only [allocSlots, List.length_append, List.length_singleton]
    rw [List.append_assoc]
    rfl

theorem allocFold_clean_iff {labs : List (String × Nat)} {ln : Nat} :
    ∀ (names : List String) (regs : List (String × Nat)),
      ((names.foldl (allocStep labs ln) ([], regs)).1 = [] ↔ allocClean regs labs names) := by
  intro names
  induction names with
  | nil =>
    intro regs
    constructor
    · intro _ i nm hi
      simp at hi
    · intro _
      rfl
  | cons nm rest ih =>
    intro regs
    rw [List.foldl_cons]
    by_cases hc : (dictContains regs nm || dictContains labs nm) = true
    · have hstep : allocStep labs ln (([] : List CompilationError), regs) nm =
          ([CompilationError.registerInUse nm ln], regs) := by
        unfold allocStep
        dsimp only
        rw [if_pos hc]
        rfl
      rw [hstep]
      constructor
      · intro h
        obtain ⟨es, hes⟩ := allocFold_errs labs ln rest _
        rw [hes] at h
        cases h
      · intro h
        rw [allocClean_cons] at h
        rw [h.1, h.2.1] at hc
        cases hc
    · have hcf : (dictContains regs nm || dictContains labs nm) = false := by
        simpa using hc
      simp only [Bool.or_eq_false_iff] at hcf
      by_cases hlen : NUM_REGISTERS ≤ regs.length
      · have hstep : allocStep labs ln (([] : List CompilationError), regs) nm =
            ([CompilationError.noMoreRegisters nm ln], regs) := by
          unfold allocStep
          dsimp only
          rw [if_neg hc, if_pos hlen]
          rfl
        rw [hstep]
        constructor
        · intro h
          obtain ⟨es, hes⟩ := allocFold_errs labs ln rest _
          rw [hes] at h
          cases h
        · intro h
          rw [allocClean_cons] at h
          exact absurd hlen (not_le.mpr h.2.2.1)
      · have hstep : allocStep labs ln (([] : List CompilationError), regs) nm =
            ([], regs ++ [(nm, regs.length)]) := by
          unfold allocStep
          dsimp only
          rw [if_neg hc, if_neg hlen, dictInsert_not_contains _ hcf.1]
        rw [hstep, ih]
        rw [allocClean_cons]
        constructor
        · intro h
          exact ⟨hcf.1, hcf.2, lt_of_not_le hlen, h⟩
        · intro h
          exact h.2.2.2

end Worm

namespace Worm

/-- C7: the namer handles each allocation directive's names left to right:
a name already in the registers map or the labels map at its turn yields
`RegisterInUseError`; otherwise a full register file (32 entries) yields
`NoMoreRegistersError`; otherwise the name is assigned slot = current size of
the registers map (so a clean directive extends the map with consecutive
slots).  The errors of a directive are appended to the errors accumulated so
far, and `do_name` succeeds exactly when no errors were collected. -/
theorem c7_allocation (regs labs : List (String × Nat)) (names : List String) (ln : Nat) :
    (∀ i nm, names.get? i = some nm →
      ((dictContains (allocLoop regs labs (names.take i) ln).2 nm ||
          dictContains labs nm) = true →
        CompilationError.registerInUse nm ln ∈ (allocLoop regs labs names ln).1) ∧
      ((dictContains (allocLoop regs labs (names.take i) ln).2 nm ||
          dictContains labs nm) = false →
        NUM_REGISTERS ≤ (allocLoop regs labs (names.take i) ln).2.length →
        CompilationError.noMoreRegisters nm ln ∈ (allocLoop regs labs names ln).1) ∧
      ((dictContains (allocLoop regs labs (names.take i) ln).2 nm ||
          dictContains labs nm) = false →
        (allocLoop regs labs (names.take i) ln).2.length < NUM_REGISTERS →
        dictLookup (allocLoop regs labs names ln).2 nm =
          some (allocLoop regs labs (names.take i) ln).2.length)) ∧
    ((allocLoop regs labs names ln).1 = [] ↔ allocClean regs labs names) ∧
    (allocClean regs labs names →
      (allocLoop regs labs names ln).2 = regs ++ allocSlots regs.length names) ∧
    (∀ s : NState,
      (nameStep s (.alloc names ln)).errors =
        s.errors ++ (allocLoop s.registers s.labels names ln).1) ∧
    (∀ code : List PLine,
      (∃ np, do_name code = .success np) ↔
        (code.foldl nameStep initNState).errors = []) := by
  refine ⟨?_, ?_, ?_, ?_, ?_⟩
  · intro i nm hi
    rw [List.get?_eq_getElem?] at hi
    obtain ⟨hlt, heq⟩ := List.getElem?_eq_some.mp hi
    have hdrop : names.drop i = nm :: names.drop (i + 1) := by
      rw [List.drop_eq_getElem_cons hlt, heq]
    have hsplit : allocLoop regs labs names ln =
        (names.drop (i + 1)).foldl (allocStep labs ln)
          (allocStep labs ln (allocLoop regs labs (names.take i) ln) nm) := by
      unfold allocLoop
      conv_lhs => rw [← List.take_append_drop i names]
      rw [List.foldl_append, hdrop, List.foldl_cons]
    refine ⟨?_, ?_, ?_⟩
    · intro hcond
      rw [hsplit]
      apply allocFold_errs_mem
      unfold allocStep
      rw [if_pos hcond]
      exact List.mem_append_right _ (List.mem_singleton.mpr rfl)
    · intro hcond hfull
      rw [hsplit]
      apply allocFold_errs_mem
      unfold allocStep
      rw [if_neg (by simp [hcond]), if_pos hfull]
      exact List.mem_append_right _ (List.mem_singleton.mpr rfl)
    · intro hcond hroom
      rw [hsplit]
      apply allocFold_lookup
      unfold allocStep
      rw [if_neg (by simp [hcond]), if_neg (not_le.mpr hroom)]
      dsimp only
      rw [dictLookup_insert, if_pos rfl]
  · exact allocFold_clean_iff names regs
  · intro h
    unfold allocLoop
    rw [allocFold_clean names regs [] h]
  · intro s
    unfold nameStep
    dsimp only
    split
    · rename_i hemp
      dsimp only
      rw [List.isEmpty_iff.mp hemp]
      simp
    · rfl
  · intro code
    unfold do_name
    dsimp only
    by_cases hemp : (List.foldl nameStep initNState code).errors.isEmpty = true
    · simp only [if_pos hemp]
      rw [List.isEmpty_iff] at hemp
      exact ⟨fun _ => hemp, fun _ => ⟨_, rfl⟩⟩
    · simp only [if_neg hemp]
      constructor
      · rintro ⟨np, hnp⟩
        cases hnp
      · intro h
        rw [← List.isEmpty_iff] at h
        exact absurd h hemp

theorem c7_allocation_witness :
    CompilationError.registerInUse "x" 7 ∈ (allocLoop [] [] ["a", "x", "x"] 7).1 ∧
    dictLookup (allocLoop [] [] ["a", "x", "x"] 7).2 "x" = some 1 := by
  have h := c7_allocation [] [] ["a", "x", "x"] 7
  refine ⟨(h.1 2 "x" rfl).1 (by decide), ?_⟩
  have h2 := (h.1 1 "x" rfl).2.2 (by decide) (by decide)
  exact h2

end Worm
